import Mathlib

/-!
Verification of the `azure_opencode_setup` configuration-merge subsystem.

This file shallowly embeds the Python modules `merge.py`, `io.py`,
`locking.py` and the orchestration function `cli._do_merge_and_write`
into Lean and proves the specification claims about them.

Conventions of the embedding:
  - A parsed JSON value (a Python object produced by `json.loads`) is a
    `JValue`; Python `dict`s become insertion-ordered association lists,
    Python `None` becomes `JValue.null`.
  - Functions that can raise become `Except PyErr`.
  - Number leaves are modelled as integers; floating point is outside
    the scope of the shallow embedding.
  - Error message text is reproduced exactly where a claim depends on it
    (the schema errors of `_merge_disabled_providers`); elsewhere the
    `detail` strings are abbreviated.
-/

/-- The error taxonomy of `errors.py`, restricted to the error kinds the
pure core can raise. -/
inductive PyErr where
  | validationError (field detail : String)
  | invalidSchemaError (path detail : String)
  | invalidJsonError (path detail : String)
deriving Repr, DecidableEq

/-- A parsed JSON value / Python object.  Objects keep key order
(Python dicts are insertion ordered). -/
inductive JValue where
  | obj : List (String × JValue) → JValue
  | arr : List JValue → JValue
  | str : String → JValue
  | int : Int → JValue
  | bool : Bool → JValue
  | null : JValue
deriving Repr

/-- A JSON document: the contents of a Python `dict[str, object]`. -/
abbrev Doc := List (String × JValue)

/-- First-occurrence association lookup: the value Python's `k in d` /
`d[k]` semantics give on a dict represented as an ordered list. -/
def lookupKey (d : Doc) (k : String) : Option JValue :=
  match d with
  | [] => none
  | (k', v) :: rest => if k' = k then some v else lookupKey rest k

/-- Python `d[k] = v` on an insertion-ordered dict: if `k` is present its
value is replaced in place, otherwise the pair is appended. -/
def setKey (d : Doc) (k : String) (v : JValue) : Doc :=
  match d with
  | [] => [(k, v)]
  | (k', v') :: rest => if k' = k then (k, v) :: rest else (k', v') :: setKey rest k v

/-- Python `d.get(k)`: `None` when the key is absent, the stored value
otherwise.  Since Python `None` is `JValue.null`, a stored JSON `null`
is indistinguishable from an absent key, exactly as in the source. -/
def dictGet (d : Doc) (k : String) : JValue :=
  (lookupKey d k).getD .null

/-- `type(x).__name__` for the Python object a `JValue` stands for. -/
def pyTypeName : JValue → String
  | .obj _ => "dict"
  | .arr _ => "list"
  | .str _ => "str"
  | .int _ => "int"
  | .bool _ => "bool"
  | .null => "NoneType"

/-! ## merge.py -/

/-- One character of the regex class `[a-zA-Z0-9]`. -/
def isAsciiAlnumChar (c : Char) : Bool :=
  ('a' ≤ c && c ≤ 'z') || ('A' ≤ c && c ≤ 'Z') || ('0' ≤ c && c ≤ '9')

/-- Whether a character list matches the (anchor-free) body of
`_RESOURCE_NAME_RE`, i.e. `[a-zA-Z0-9][a-zA-Z0-9-]{0,62}[a-zA-Z0-9]`
or the single-character alternative `[a-zA-Z0-9]`. -/
def matchesNameCore : List Char → Bool
  | [] => false
  | [c] => isAsciiAlnumChar c
  | c :: rest =>
      match rest.getLast? with
      | some lastc =>
          isAsciiAlnumChar c && isAsciiAlnumChar lastc
            && rest.dropLast.all (fun x => isAsciiAlnumChar x || x == '-')
            && decide (rest.length ≤ 63)
      | none => false

/-- `_RESOURCE_NAME_RE.match(s)` as a Boolean.  Python's `$` (without
`re.MULTILINE`) asserts at the end of the string or just before a single
trailing `'\n'`, so a name followed by one trailing newline also
matches. -/
def reMatchResourceName (s : String) : Bool :=
  matchesNameCore s.data ||
    (match s.data.getLast? with
     | some c => c == '\n' && matchesNameCore s.data.dropLast
     | none => false)

/-- `merge.validate_resource_name` (merge.py:32).  The `detail` text is
abbreviated; only the error kind and field are modelled. -/
def validate_resource_name (name : String) : Except PyErr Unit :=
  if name = "" || !reMatchResourceName name then
    .error (.validationError "resource_name" "Invalid Azure resource name")
  else
    .ok ()

/-- `merge.merge_auth` (merge.py:55). -/
def merge_auth (existing : Doc) (provider_id api_key : String) : Except PyErr Doc :=
  if provider_id = "" then
    .error (.validationError "provider_id" "Must not be empty")
  else if api_key = "" then
    .error (.validationError "api_key" "Must not be empty")
  else
    .ok (setKey existing provider_id (.obj [("type", .str "api"), ("key", .str api_key)]))

/-- `merge._validate_string_list` (merge.py:178): raises at the first
non-string element, naming its Python type. -/
def _validate_string_list : List JValue → Except PyErr Unit
  | [] => .ok ()
  | .str _ :: rest => _validate_string_list rest
  | v :: _ =>
      .error (.invalidSchemaError "opencode.json"
        ("disabled_providers contains non-string: " ++ pyTypeName v))

/-- `merge._dedup_preserve_order` (merge.py:198): single pass with a
seen-set, first occurrence wins. -/
def _dedup_preserve_order (items : List String) : List String :=
  go [] items
where
  /-- The loop of `_dedup_preserve_order`; `seen` collects emitted values. -/
  go : List String → List String → List String
  | _, [] => []
  | seen, i :: rest => if i ∈ seen then go seen rest else i :: go (i :: seen) rest

/-- The string payloads of a list of values, all of which are strings
(`[str(x) for x in typed_dp]` after `_validate_string_list`). -/
def strValues (items : List JValue) : List String :=
  items.filterMap fun v => match v with | .str s => some s | _ => none

/-- `merge._merge_disabled_providers` (merge.py:144).  Its argument is
the result of `result.get("disabled_providers")`, so an absent key and a
stored JSON `null` both arrive as `null` (Python `None`). -/
def _merge_disabled_providers (existing_dp : JValue) (new_providers : List String) :
    Except PyErr (List String) :=
  match existing_dp with
  | .null => .ok (_dedup_preserve_order ([] ++ new_providers))
  | .arr items => do
      _validate_string_list items
      .ok (_dedup_preserve_order (strValues items ++ new_providers))
  | v =>
      .error (.invalidSchemaError "opencode.json"
        ("disabled_providers must be a list, got " ++ pyTypeName v
          ++ ". This may indicate a hand-edited or corrupt config file."))

/-- `merge._COGS_ENDPOINT_TEMPLATE` (merge.py:28). -/
def _COGS_ENDPOINT_TEMPLATE : String := "https://\x7bname\x7d.cognitiveservices.azure.com/openai"

/-- `merge._OPENAI_ENDPOINT_TEMPLATE` (merge.py:29). -/
def _OPENAI_ENDPOINT_TEMPLATE : String := "https://\x7bname\x7d.openai.azure.com/openai"

/-- `template.format(name=n)`: replace each occurrence of the
placeholder `\x7bname\x7d` in the character stream by `n`. -/
def fmtNameChars (t : List Char) (n : List Char) : List Char :=
  match t with
  | [] => []
  | '\x7b' :: 'n' :: 'a' :: 'm' :: 'e' :: '\x7d' :: rest => n ++ fmtNameChars rest n
  | c :: rest => c :: fmtNameChars rest n

/-- `str.format` specialised to the single `name` placeholder. -/
def pyFormatName (template n : String) : String :=
  ⟨fmtNameChars template.data n.data⟩

/-- `merge.merge_config` (merge.py:85).  The `try/except` around
`_merge_disabled_providers` re-raises an identical `InvalidSchemaError`,
which is the identity on our error value.  `dict(existing)` and
`dict(typed_providers)` are shallow copies, extensionally the identity
(object identity is treated in the heap model below). -/
def merge_config (existing : Doc) (provider_id resource_name : String)
    (whitelist disabled_providers : List String) : Except PyErr Doc :=
  if provider_id = "" then
    .error (.validationError "provider_id" "Must not be empty")
  else
    match validate_resource_name resource_name with
    | .error e => .error e
    | .ok _ =>
      match _merge_disabled_providers (dictGet existing "disabled_providers") disabled_providers with
      | .error e => .error e
      | .ok merged_dp =>
        let result := setKey existing "disabled_providers" (.arr (merged_dp.map .str))
        let providers : Doc :=
          match dictGet result "provider" with
          | .obj entries => entries
          | _ => []
        let base_url :=
          if provider_id = "azure" then pyFormatName _OPENAI_ENDPOINT_TEMPLATE resource_name
          else pyFormatName _COGS_ENDPOINT_TEMPLATE resource_name
        let deduped_whitelist := _dedup_preserve_order whitelist
        let providers := setKey providers provider_id
          (.obj [("options", .obj [("baseURL", .str base_url)]),
                 ("whitelist", .arr (deduped_whitelist.map .str))])
        .ok (setKey result "provider" (.obj providers))

example : validate_resource_name "a\n" = .ok () := rfl
example : validate_resource_name "foo\nbar" =
    .error (.validationError "resource_name" "Invalid Azure resource name") := rfl
example : reMatchResourceName "Resource-Name-2024" = true := by decide
example : reMatchResourceName "-leading-hyphen" = false := by decide
example : pyFormatName _COGS_ENDPOINT_TEMPLATE "myresource" =
    "https://myresource.cognitiveservices.azure.com/openai" := rfl

/-! ## Association-list lemmas (Python dict semantics) -/

theorem lookupKey_setKey_self (d : Doc) (k : String) (v : JValue) :
    lookupKey (setKey d k v) k = some v := by
  induction d with
  | nil => simp [setKey, lookupKey]
  | cons hd tl ih =>
    obtain ⟨k', v'⟩ := hd
    by_cases h : k' = k
    · simp [setKey, lookupKey, h]
    · simp [setKey, lookupKey, h, ih]

theorem lookupKey_setKey_ne (d : Doc) (k q : String) (v : JValue) (hq : q ≠ k) :
    lookupKey (setKey d k v) q = lookupKey d q := by
  have hk : k ≠ q := Ne.symm hq
  induction d with
  | nil => simp [setKey, lookupKey, hk]
  | cons hd tl ih =>
    obtain ⟨k', v'⟩ := hd
    by_cases h : k' = k
    · subst h
      simp [setKey, lookupKey, hk]
    · simp [setKey, lookupKey, h, ih]

theorem setKey_of_lookup_eq (d : Doc) (k : String) (v : JValue)
    (h : lookupKey d k = some v) : setKey d k v = d := by
  induction d with
  | nil => simp [lookupKey] at h
  | cons hd tl ih =>
    obtain ⟨k', v'⟩ := hd
    by_cases hk : k' = k
    · subst hk
      simp [lookupKey] at h
      simp [setKey, h]
    · simp [lookupKey, hk] at h
      simp [setKey, hk, ih h]

theorem setKey_setKey_same (d : Doc) (k : String) (v : JValue) :
    setKey (setKey d k v) k v = setKey d k v :=
  setKey_of_lookup_eq _ _ _ (lookupKey_setKey_self d k v)

/-! ## First-occurrence deduplication, stated from the spec's words -/

/-- Modelled from the spec's words ("deduplicated preserving
first-occurrence order: existing entries keep their relative order,
genuinely new entries are appended in the order given"): keep each
element's first occurrence and drop every later repeat.  This is the
reference definition that `_dedup_preserve_order` (the seen-set loop of
the source) is proved to refine. -/
def firstOccDedup : List String → List String
  | [] => []
  | x :: rest => x :: firstOccDedup (rest.filter (fun y => y ≠ x))
termination_by l => l.length
decreasing_by
  simp only [List.length_cons]
  exact Nat.lt_succ_of_le (List.length_filter_le _ _)

theorem firstOccDedup_sublist (l : List String) : (firstOccDedup l).Sublist l := by
  induction l using firstOccDedup.induct with
  | case1 => simp [firstOccDedup]
  | case2 x rest ih =>
    rw [firstOccDedup]
    exact (ih.trans (List.filter_sublist rest)).cons₂ x

theorem mem_firstOccDedup (l : List String) (x : String) :
    x ∈ firstOccDedup l ↔ x ∈ l := by
  induction l using firstOccDedup.induct with
  | case1 => simp [firstOccDedup]
  | case2 y rest ih =>
    rw [firstOccDedup]
    simp only [List.mem_cons]
    by_cases hxy : x = y
    · simp [hxy]
    · simp only [hxy, false_or]
      rw [ih]
      simp [List.mem_filter, hxy]

theorem firstOccDedup_nodup (l : List String) : (firstOccDedup l).Nodup := by
  induction l using firstOccDedup.induct with
  | case1 => simp [firstOccDedup]
  | case2 x rest ih =>
    rw [firstOccDedup]
    refine List.nodup_cons.mpr ⟨fun hx => ?_, ih⟩
    have := (mem_firstOccDedup _ _).mp hx
    simp [List.mem_filter] at this

theorem go_eq_firstOccDedup_filter (seen items : List String) :
    _dedup_preserve_order.go seen items
      = firstOccDedup (items.filter (fun y => y ∉ seen)) := by
  induction items generalizing seen with
  | nil => simp [_dedup_preserve_order.go, firstOccDedup]

  | cons x rest ih =>
    by_cases hx : x ∈ seen
    · rw [_dedup_preserve_order.go]
      simp only [if_pos hx]
      rw [ih seen, List.filter_cons_of_neg (by simp [hx])]
    · rw [_dedup_preserve_order.go]
      simp only [if_neg hx]
      rw [List.filter_cons_of_pos (by simp [hx]), firstOccDedup]
      congr 1
      rw [ih (x :: seen), List.filter_filter]
      congr 1
      apply List.filter_congr
      intro y _
      by_cases h1 : y = x <;> by_cases h2 : y ∈ seen <;> simp [h1, h2]

/-- The source's seen-set loop computes exactly the spec's
first-occurrence deduplication. -/
theorem dedup_preserve_order_eq (items : List String) :
    _dedup_preserve_order items = firstOccDedup items := by
  rw [_dedup_preserve_order, go_eq_firstOccDedup_filter]
  congr 1
  exact List.filter_eq_self.mpr (by simp)

theorem firstOccDedup_append_of_subset (l e : List String)
    (hnd : l.Nodup) (hsub : ∀ x ∈ e, x ∈ l) :
    firstOccDedup (l ++ e) = l := by
  induction l generalizing e with
  | nil =>
    cases e with
    | nil => simp [firstOccDedup]
    | cons y ys => exact absurd (hsub y (by simp)) (by simp)
  | cons x l' ih =>
    rw [List.cons_append, firstOccDedup]
    have hx : x ∉ l' := (List.nodup_cons.mp hnd).1
    have hfl : (l' ++ e).filter (fun y => y ≠ x) = l' ++ e.filter (fun y => y ≠ x) := by
      rw [List.filter_append]
      congr 1
      exact List.filter_eq_self.mpr fun a ha => by
        simp only [ne_eq, decide_eq_true_eq]
        exact fun hax => hx (hax ▸ ha)
    rw [hfl, ih (e.filter (fun y => y ≠ x)) (List.nodup_cons.mp hnd).2]
    intro y hy
    have hy' := List.mem_filter.mp hy
    have := hsub y hy'.1
    simp only [List.mem_cons] at this
    rcases this with h | h
    · exact absurd (by simpa using hy'.2) (by simp [h])
    · exact h

theorem strValues_map_str (m : List String) : strValues (m.map JValue.str) = m := by
  induction m with
  | nil => rfl
  | cons x rest ih => simp [strValues, List.filterMap] at ih ⊢; exact ih

theorem validate_string_list_map_str (m : List String) :
    _validate_string_list (m.map JValue.str) = .ok () := by
  induction m with
  | nil => rfl
  | cons x rest ih => simpa [_validate_string_list] using ih

/-! ## Claim C2 -/

/-- C2: the claim states that `validate_resource_name` rejects every
string containing a control character.  The code uses `$` (not `\Z`) in
`_RESOURCE_NAME_RE`; Python's `$` also matches just before a single
trailing newline, so the name `"a\n"` — which contains a control
character and does not end in an alphanumeric character, contradicting
the function's own docstring — is accepted.  This theorem evaluates the
embedded code at that failing input. -/
theorem validate_resource_name_accepts_trailing_newline :
    validate_resource_name "a\n" = .ok ()
      ∧ "a\n".data.any (fun c => decide (c.val < 32)) = true :=
  ⟨rfl, by decide⟩

/-! ## Claim C4 -/

/-- C4: `merge_auth` upserts `provider_id ↦ \x7b type: "api", key: api_key \x7d`
into a copy of the document, leaves every other key (whatever the shape
of its value) unchanged, and raises `ValidationError` when the provider
id or the api key is empty. -/
theorem merge_auth_upserts_and_preserves (d : Doc) (p k : String) :
    merge_auth d "" k = .error (.validationError "provider_id" "Must not be empty")
  ∧ (p ≠ "" → merge_auth d p "" = .error (.validationError "api_key" "Must not be empty"))
  ∧ (p ≠ "" → k ≠ "" →
      ∃ out, merge_auth d p k = .ok out
        ∧ lookupKey out p = some (.obj [("type", .str "api"), ("key", .str k)])
        ∧ ∀ q, q ≠ p → lookupKey out q = lookupKey d q) := by
  refine ⟨rfl, fun hp => ?_, fun hp hk => ?_⟩
  · simp [merge_auth, hp]
  · refine ⟨setKey d p (.obj [("type", .str "api"), ("key", .str k)]), ?_, ?_, ?_⟩
    · simp [merge_auth, hp, hk]
    · exact lookupKey_setKey_self d p _
    · exact fun q hq => lookupKey_setKey_ne d p q _ hq

/-- Witness for C4, the spec's literal end-to-end scenario 3: an
OAuth-shaped entry passes through unchanged while the api entry is
inserted. -/
theorem merge_auth_upserts_witness :
    ("azure-cognitive-services" : String) ≠ ""
  ∧ ("sk-123" : String) ≠ ""
  ∧ (∃ out,
      merge_auth [("github-copilot", .obj [("type", .str "oauth"), ("token", .str "gh-tok")])]
        "azure-cognitive-services" "sk-123" = .ok out
      ∧ lookupKey out "azure-cognitive-services"
          = some (.obj [("type", .str "api"), ("key", .str "sk-123")])
      ∧ ∀ q, q ≠ "azure-cognitive-services" →
          lookupKey out q
            = lookupKey [("github-copilot", .obj [("type", .str "oauth"), ("token", .str "gh-tok")])] q) :=
  ⟨by decide, by decide,
    (merge_auth_upserts_and_preserves
      [("github-copilot", .obj [("type", .str "oauth"), ("token", .str "gh-tok")])]
      "azure-cognitive-services" "sk-123").2.2 (by decide) (by decide)⟩

/-! ## Claim C5 -/

theorem pyFormatName_cogs (n : String) :
    pyFormatName _COGS_ENDPOINT_TEMPLATE n
      = "https://" ++ n ++ ".cognitiveservices.azure.com/openai" := by
  obtain ⟨data⟩ := n
  rfl

theorem pyFormatName_openai (n : String) :
    pyFormatName _OPENAI_ENDPOINT_TEMPLATE n
      = "https://" ++ n ++ ".openai.azure.com/openai" := by
  obtain ⟨data⟩ := n
  rfl

/-- C5: `merge_config` builds the provider block's `baseURL` by
substituting the resource name into the Azure-OpenAI template exactly
when the provider id is `"azure"` and into the Cognitive-Services
template otherwise, and stores the caller-supplied whitelist
deduplicated in first-occurrence order. -/
theorem merge_config_provider_block (existing : Doc) (pid rname : String)
    (wl dps : List String) (out : Doc)
    (hok : merge_config existing pid rname wl dps = .ok out) :
    ∃ providers w,
      lookupKey out "provider" = some (.obj providers)
      ∧ lookupKey providers pid = some (.obj
          [("options", .obj [("baseURL", .str
              (if pid = "azure"
               then "https://" ++ rname ++ ".openai.azure.com/openai"
               else "https://" ++ rname ++ ".cognitiveservices.azure.com/openai"))]),
           ("whitelist", .arr (w.map .str))])
      ∧ w = firstOccDedup wl
      ∧ w.Nodup ∧ w.Sublist wl ∧ (∀ x, x ∈ w ↔ x ∈ wl) := by
  by_cases hpid : pid = ""
  · simp [merge_config, hpid] at hok
  · simp only [merge_config, if_neg hpid] at hok
    split at hok
    · exact absurd hok (by simp)
    · split at hok
      · exact absurd hok (by simp)
      · rename_i m hm
        simp only [Except.ok.injEq] at hok
        subst hok
        refine ⟨_, _dedup_preserve_order wl, lookupKey_setKey_self _ _ _, ?_, ?_, ?_, ?_, ?_⟩
        · rw [lookupKey_setKey_self]
          by_cases haz : pid = "azure" <;>
            simp [haz, pyFormatName_cogs, pyFormatName_openai]
        · exact dedup_preserve_order_eq wl
        · rw [dedup_preserve_order_eq]; exact firstOccDedup_nodup wl
        · rw [dedup_preserve_order_eq]; exact firstOccDedup_sublist wl
        · intro x; rw [dedup_preserve_order_eq]; exact mem_firstOccDedup wl x

/-- Witness for C5, the spec's literal end-to-end scenario 1. -/
theorem merge_config_provider_block_witness :
    merge_config [] "azure-cognitive-services" "myresource" ["gpt-4o"] ["azure"]
      = .ok [("disabled_providers", .arr [.str "azure"]),
             ("provider", .obj [("azure-cognitive-services", .obj
                [("options", .obj
                    [("baseURL", .str "https://myresource.cognitiveservices.azure.com/openai")]),
                 ("whitelist", .arr [.str "gpt-4o"])])])]
  ∧ (∃ providers w,
      lookupKey [("disabled_providers", .arr [.str "azure"]),
             ("provider", .obj [("azure-cognitive-services", .obj
                [("options", .obj
                    [("baseURL", .str "https://myresource.cognitiveservices.azure.com/openai")]),
                 ("whitelist", .arr [.str "gpt-4o"])])])] "provider" = some (.obj providers)
      ∧ lookupKey providers "azure-cognitive-services" = some (.obj
          [("options", .obj [("baseURL", .str
              (if ("azure-cognitive-services" : String) = "azure"
               then "https://" ++ "myresource" ++ ".openai.azure.com/openai"
               else "https://" ++ "myresource" ++ ".cognitiveservices.azure.com/openai"))]),
           ("whitelist", .arr (w.map .str))])
      ∧ w = firstOccDedup ["gpt-4o"]
      ∧ w.Nodup ∧ w.Sublist ["gpt-4o"] ∧ (∀ x, x ∈ w ↔ x ∈ ["gpt-4o"])) :=
  ⟨rfl, merge_config_provider_block [] "azure-cognitive-services" "myresource"
    ["gpt-4o"] ["azure"] _ rfl⟩

/-! ## Claim C6 -/

/-- Counterexample to C6 as stated: in the document
`\x7b"disabled_providers": null\x7d` the key is present and its value is not
a list, yet `merge_config` succeeds instead of raising `SchemaError`:
`dict.get` returns Python `None` both for an absent key and for a stored
JSON `null`, and the `None` branch of `_merge_disabled_providers`
treats it as the empty sequence. -/
theorem merge_config_null_disabled_providers_no_error :
    lookupKey [("disabled_providers", JValue.null)] "disabled_providers" = some JValue.null
  ∧ (∀ items : List JValue, JValue.null ≠ JValue.arr items)
  ∧ merge_config [("disabled_providers", JValue.null)] "p" "myres" [] ["azure"]
      = .ok [("disabled_providers", .arr [.str "azure"]),
             ("provider", .obj [("p", .obj
                [("options", .obj
                    [("baseURL", .str "https://myres.cognitiveservices.azure.com/openai")]),
                 ("whitelist", .arr [])])])] :=
  ⟨rfl, fun _ h => JValue.noConfusion h, rfl⟩

/-- C6 as amended: an absent key — and, because `dict.get` cannot
distinguish the two, a stored JSON `null` — is treated as the empty
sequence; any other non-list value raises `SchemaError`; a list with a
non-string element raises `SchemaError` naming the offending element's
Python type (at the first offender); otherwise the result is the
concatenation of the existing list and the caller-supplied list,
deduplicated keeping first occurrences in order. -/
theorem merge_disabled_providers_spec (d : Doc) (ex new : List String)
    (v w : JValue) (pre post : List JValue) :
    (lookupKey d "disabled_providers" = none →
      _merge_disabled_providers (dictGet d "disabled_providers") new
        = .ok (firstOccDedup ([] ++ new)))
  ∧ _merge_disabled_providers .null new = .ok (firstOccDedup ([] ++ new))
  ∧ (v ≠ .null → (∀ items, v ≠ .arr items) →
      _merge_disabled_providers v new = .error (.invalidSchemaError "opencode.json"
        ("disabled_providers must be a list, got " ++ pyTypeName v
          ++ ". This may indicate a hand-edited or corrupt config file.")))
  ∧ ((∀ x ∈ pre, ∃ s, x = JValue.str s) → (∀ s, w ≠ JValue.str s) →
      _merge_disabled_providers (.arr (pre ++ w :: post)) new
        = .error (.invalidSchemaError "opencode.json"
            ("disabled_providers contains non-string: " ++ pyTypeName w)))
  ∧ (_merge_disabled_providers (.arr (ex.map .str)) new = .ok (firstOccDedup (ex ++ new))
      ∧ (firstOccDedup (ex ++ new)).Nodup
      ∧ (firstOccDedup (ex ++ new)).Sublist (ex ++ new)
      ∧ (∀ x, x ∈ firstOccDedup (ex ++ new) ↔ x ∈ ex ++ new)) := by
  refine ⟨?_, ?_, ?_, ?_, ?_, ?_, ?_, ?_⟩
  · intro habs
    rw [dictGet, habs]
    simp [_merge_disabled_providers, dedup_preserve_order_eq]
  · simp [_merge_disabled_providers, dedup_preserve_order_eq]
  · intro hnull harr
    cases v with
    | null => exact absurd rfl hnull
    | arr items => exact absurd rfl (harr items)
    | obj e => rfl
    | str s => rfl
    | int i => rfl
    | bool b => rfl
  · intro hpre hw
    have hval : _validate_string_list (pre ++ w :: post)
        = .error (.invalidSchemaError "opencode.json"
            ("disabled_providers contains non-string: " ++ pyTypeName w)) := by
      induction pre with
      | nil =>
        cases w with
        | str s => exact absurd rfl (hw s)
        | obj e => rfl
        | arr items => rfl
        | int i => rfl
        | bool b => rfl
        | null => rfl
      | cons x rest ih =>
        obtain ⟨s, hs⟩ := hpre x (by simp)
        subst hs
        simpa [_validate_string_list] using ih fun y hy => hpre y (by simp [hy])
    simp [_merge_disabled_providers, hval, Bind.bind, Except.bind]
  · have hval := validate_string_list_map_str ex
    simp [_merge_disabled_providers, hval, strValues_map_str, dedup_preserve_order_eq,
      Bind.bind, Except.bind]
  · exact firstOccDedup_nodup _
  · exact firstOccDedup_sublist _
  · exact fun x => mem_firstOccDedup _ x

/-- Witness for the amended C6 at concrete inputs: an existing list
`["z-provider", "a-provider"]` with new `["m-provider", "z-provider"]`,
and a non-list / non-string offender. -/
theorem merge_disabled_providers_spec_witness :
    lookupKey [("theme", JValue.str "dark")] "disabled_providers" = none
  ∧ (JValue.str "azure" ≠ JValue.null)
  ∧ (∀ items, JValue.str "azure" ≠ JValue.arr items)
  ∧ (∀ x ∈ ([] : List JValue), ∃ s, x = JValue.str s)
  ∧ (∀ s, JValue.int 3 ≠ JValue.str s)
  ∧ _merge_disabled_providers (dictGet [("theme", JValue.str "dark")] "disabled_providers")
      ["azure"] = .ok (firstOccDedup ([] ++ ["azure"]))
  ∧ _merge_disabled_providers (.str "azure") ["x"]
      = .error (.invalidSchemaError "opencode.json"
          ("disabled_providers must be a list, got " ++ pyTypeName (.str "azure")
            ++ ". This may indicate a hand-edited or corrupt config file."))
  ∧ _merge_disabled_providers (.arr ([] ++ JValue.int 3 :: [JValue.str "ok"])) ["x"]
      = .error (.invalidSchemaError "opencode.json"
          ("disabled_providers contains non-string: " ++ pyTypeName (.int 3)))
  ∧ _merge_disabled_providers (.arr (["z-provider", "a-provider"].map .str))
      ["m-provider", "z-provider"]
      = .ok (firstOccDedup (["z-provider", "a-provider"] ++ ["m-provider", "z-provider"])) := by
  have ha := merge_disabled_providers_spec [("theme", JValue.str "dark")]
    ["z-provider", "a-provider"] ["azure"]
    (JValue.str "azure") (JValue.int 3) [] [JValue.str "ok"]
  have hx := merge_disabled_providers_spec [("theme", JValue.str "dark")]
    ["z-provider", "a-provider"] ["x"]
    (JValue.str "azure") (JValue.int 3) [] [JValue.str "ok"]
  have hm := merge_disabled_providers_spec [("theme", JValue.str "dark")]
    ["z-provider", "a-provider"] ["m-provider", "z-provider"]
    (JValue.str "azure") (JValue.int 3) [] [JValue.str "ok"]
  refine ⟨rfl, fun h => JValue.noConfusion h, fun _ h => JValue.noConfusion h,
    by simp, fun _ h => JValue.noConfusion h, ha.1 rfl, ?_, ?_, ?_⟩
  · exact hx.2.2.1 (fun h => JValue.noConfusion h) (fun _ h => JValue.noConfusion h)
  · exact hx.2.2.2.1 (by simp) (fun _ h => JValue.noConfusion h)
  · exact hm.2.2.2.2.1

/-! ## Claim C7 -/

theorem mdp_ok_shape (v : JValue) (dp m : List String)
    (h : _merge_disabled_providers v dp = .ok m) :
    ∃ l0, m = firstOccDedup (l0 ++ dp) := by
  cases v with
  | null =>
    refine ⟨[], ?_⟩
    simp only [_merge_disabled_providers, dedup_preserve_order_eq, Except.ok.injEq] at h
    exact h.symm
  | arr items =>
    cases hvl : _validate_string_list items with
    | error e =>
      simp [_merge_disabled_providers, hvl, Bind.bind, Except.bind] at h
    | ok u =>
      refine ⟨strValues items, ?_⟩
      simp only [_merge_disabled_providers, hvl, dedup_preserve_order_eq, Bind.bind,
        Except.bind, Except.ok.injEq] at h
      exact h.symm
  | obj e => simp [_merge_disabled_providers] at h
  | str s => simp [_merge_disabled_providers] at h
  | int i => simp [_merge_disabled_providers] at h
  | bool b => simp [_merge_disabled_providers] at h

theorem mdp_second_run (v : JValue) (dp m : List String)
    (h : _merge_disabled_providers v dp = .ok m) :
    _merge_disabled_providers (.arr (m.map .str)) dp = .ok m := by
  obtain ⟨l0, hm⟩ := mdp_ok_shape v dp m h
  have hnd : m.Nodup := hm ▸ firstOccDedup_nodup _
  have hsub : ∀ x ∈ dp, x ∈ m := fun x hx =>
    hm ▸ (mem_firstOccDedup _ x).mpr (List.mem_append_right l0 hx)
  simp only [_merge_disabled_providers, validate_string_list_map_str, strValues_map_str,
    dedup_preserve_order_eq, Bind.bind, Except.bind]
  rw [firstOccDedup_append_of_subset m dp hnd hsub]

/-- Unfolding equation for a successful `merge_config` run, given the
outcomes of its validation and disabled-providers steps. -/
theorem merge_config_ok_unfold (e : Doc) (pid rn : String) (wl dp : List String)
    (m : List String) (hpid : pid ≠ "")
    (hval : validate_resource_name rn = .ok ())
    (hm : _merge_disabled_providers (dictGet e "disabled_providers") dp = .ok m) :
    merge_config e pid rn wl dp = .ok
      (setKey (setKey e "disabled_providers" (.arr (m.map .str))) "provider"
        (.obj (setKey
          (match dictGet (setKey e "disabled_providers" (.arr (m.map .str))) "provider" with
           | JValue.obj entries => entries
           | _ => [])
          pid
          (.obj [("options", .obj [("baseURL", .str
              (if pid = "azure" then pyFormatName _OPENAI_ENDPOINT_TEMPLATE rn
               else pyFormatName _COGS_ENDPOINT_TEMPLATE rn))]),
             ("whitelist", .arr ((_dedup_preserve_order wl).map .str))])))) := by
  rw [merge_config, if_neg hpid, hval, hm]

/-- C7: `merge_auth` and `merge_config` are idempotent — applying the
merge a second time with the same inputs returns the first result
unchanged; nothing is double-applied. -/
theorem merge_functions_idempotent (d : Doc) (p k pid rn : String)
    (wl dp : List String) (d1 e1 : Doc) :
    (merge_auth d p k = .ok d1 → merge_auth d1 p k = .ok d1)
  ∧ (merge_config d pid rn wl dp = .ok e1 → merge_config e1 pid rn wl dp = .ok e1) := by
  constructor
  · intro h
    by_cases hp : p = ""
    · simp [merge_auth, hp] at h
    by_cases hk : k = ""
    · simp [merge_auth, hp, hk] at h
    simp only [merge_auth, if_neg hp, if_neg hk, Except.ok.injEq] at h ⊢
    rw [← h, setKey_setKey_same]
  · intro h
    by_cases hpid : pid = ""
    · simp [merge_config, hpid] at h
    cases hval : validate_resource_name rn with
    | error e =>
      rw [merge_config, if_neg hpid, hval] at h
      exact Except.noConfusion h
    | ok u =>
      cases u
      cases hm : _merge_disabled_providers (dictGet d "disabled_providers") dp with
      | error e =>
        rw [merge_config, if_neg hpid, hval, hm] at h
        exact Except.noConfusion h
      | ok m =>
        have h1 := merge_config_ok_unfold d pid rn wl dp m hpid hval hm
        have hne : ("disabled_providers" : String) ≠ "provider" := by decide
        -- abbreviate the run's intermediate values
        generalize hb : (JValue.obj
            [("options", JValue.obj [("baseURL", JValue.str
                (if pid = "azure" then pyFormatName _OPENAI_ENDPOINT_TEMPLATE rn
                 else pyFormatName _COGS_ENDPOINT_TEMPLATE rn))]),
             ("whitelist", JValue.arr (List.map JValue.str (_dedup_preserve_order wl)))]) = b at h1
        generalize hr : setKey d "disabled_providers" (JValue.arr (List.map JValue.str m)) = r at h1
        generalize hq : (match dictGet r "provider" with
            | JValue.obj entries => entries
            | x => []) = q at h1
        have h2 := h1.symm.trans h
        injection h2 with he1
        subst he1
        have hlookA : lookupKey (setKey r "provider" (JValue.obj (setKey q pid b)))
            "disabled_providers" = some (JValue.arr (List.map JValue.str m)) := by
          rw [lookupKey_setKey_ne _ _ _ _ hne, ← hr, lookupKey_setKey_self]
        have hm2 : _merge_disabled_providers
            (dictGet (setKey r "provider" (JValue.obj (setKey q pid b))) "disabled_providers")
            dp = .ok m := by
          rw [dictGet, hlookA]
          exact mdp_second_run _ dp m hm
        rw [merge_config_ok_unfold _ pid rn wl dp m hpid hval hm2, hb]
        rw [setKey_of_lookup_eq _ _ _ hlookA]
        have hlookP : lookupKey (setKey r "provider" (JValue.obj (setKey q pid b)))
            "provider" = some (JValue.obj (setKey q pid b)) := lookupKey_setKey_self _ _ _
        have hgetP : (match dictGet (setKey r "provider" (JValue.obj (setKey q pid b)))
              "provider" with
            | JValue.obj entries => entries
            | x => []) = setKey q pid b := by
          rw [dictGet, hlookP]
          rfl
        rw [hgetP, setKey_setKey_same, setKey_of_lookup_eq _ _ _ hlookP]

/-- Witness for C7 at concrete inputs. -/
theorem merge_functions_idempotent_witness :
    merge_auth [("az", .obj [("type", .str "api"), ("key", .str "sk")])] "az" "sk"
      = .ok [("az", .obj [("type", .str "api"), ("key", .str "sk")])]
  ∧ merge_config
      [("disabled_providers", .arr [.str "azure"]),
       ("provider", .obj [("p", .obj
          [("options", .obj
              [("baseURL", .str "https://myres.cognitiveservices.azure.com/openai")]),
           ("whitelist", .arr [])])])] "p" "myres" [] ["azure"]
      = .ok [("disabled_providers", .arr [.str "azure"]),
             ("provider", .obj [("p", .obj
                [("options", .obj
                    [("baseURL", .str "https://myres.cognitiveservices.azure.com/openai")]),
                 ("whitelist", .arr [])])])] :=
  ⟨(merge_functions_idempotent [] "az" "sk" "p" "myres" [] []
      [("az", .obj [("type", .str "api"), ("key", .str "sk")])] []).1 rfl,
   (merge_functions_idempotent [] "az" "sk" "p" "myres" [] ["azure"] []
      [("disabled_providers", .arr [.str "azure"]),
       ("provider", .obj [("p", .obj
          [("options", .obj
              [("baseURL", .str "https://myres.cognitiveservices.azure.com/openai")]),
           ("whitelist", .arr [])])])]).2 rfl⟩

/-! ## Heap model of the merge functions (object identity / mutation)

The pure model above is extensional; Python dicts, however, are mutable
objects, and C3 is about mutation.  Here the same two source functions
are embedded operationally: Python objects live in a heap (a list of
nodes addressed by allocation order), `dict(existing)` allocates a new
node sharing the old entry references, and `d[k] = v` is an in-place
update of one heap cell.  The theorems show the functions only ever
update freshly allocated cells, so every cell of the input heap — hence
everything reachable from the input document — is unchanged. -/

/-- A heap address. -/
abbrev Ref := Nat

/-- One Python object: dicts and lists hold references, leaves are
immutable values. -/
inductive HNode where
  | obj : List (String × Ref) → HNode
  | arr : List Ref → HNode
  | str : String → HNode
  | int : Int → HNode
  | bool : Bool → HNode
  | null : HNode
deriving Repr

/-- The heap: node at address `i` is the `i`-th element. -/
abbrev Heap := List HNode

/-- Dereference. -/
def hGet (h : Heap) (r : Ref) : Option HNode := h[r]?

/-- In-place update of one cell. -/
def hSet (h : Heap) (r : Ref) (n : HNode) : Heap := h.set r n

/-- Allocation: append at the next fresh address. -/
def alloc (h : Heap) (n : HNode) : Heap × Ref := (h ++ [n], h.length)

/-- `h'` preserves every cell of `h`: nothing reachable from a document
that lives in `h` has been mutated. -/
def heapLE (h h' : Heap) : Prop := ∀ i, i < h.length → hGet h' i = hGet h i

theorem heapLE_refl (h : Heap) : heapLE h h := fun _ _ => rfl

theorem heapLE_trans {h1 h2 h3 : Heap} (hlen : h1.length ≤ h2.length)
    (a : heapLE h1 h2) (b : heapLE h2 h3) : heapLE h1 h3 :=
  fun i hi => (b i (lt_of_lt_of_le hi hlen)).trans (a i hi)

theorem heapLE_append (h t : Heap) : heapLE h (h ++ t) := by
  intro i hi
  simp [hGet, List.getElem?_append_left hi]

theorem heapLE_set {h h' : Heap} (hle : heapLE h h') (r : Ref) (n : HNode)
    (hr : h.length ≤ r) : heapLE h (hSet h' r n) := by
  intro i hi
  rw [← hle i hi]
  have : i ≠ r := Nat.ne_of_lt (lt_of_lt_of_le hi hr)
  simp [hGet, hSet, List.getElem?_set_ne (Ne.symm this)]

theorem hGet_set_self {h : Heap} {r : Ref} (n : HNode) (hr : r < h.length) :
    hGet (hSet h r n) r = some n := by
  simp [hGet, hSet, List.getElem?_set_self, hr]

theorem hGet_set_ne {h : Heap} {r r' : Ref} (n : HNode) (hne : r' ≠ r) :
    hGet (hSet h r n) r' = hGet h r' := by
  simp [hGet, hSet, List.getElem?_set_ne (Ne.symm hne)]

theorem hGet_append_new (h : Heap) (n : HNode) : hGet (h ++ [n]) h.length = some n := by
  simp [hGet]

/-- First-occurrence association lookup on a dict node's entries. -/
def lookupKeyG (d : List (String × Ref)) (k : String) : Option Ref :=
  match d with
  | [] => none
  | (k', v) :: rest => if k' = k then some v else lookupKeyG rest k

/-- Python `d[k] = v` on a dict node's entries. -/
def setKeyG (d : List (String × Ref)) (k : String) (v : Ref) : List (String × Ref) :=
  match d with
  | [] => [(k, v)]
  | (k', v') :: rest => if k' = k then (k, v) :: rest else (k', v') :: setKeyG rest k v

theorem lookupKeyG_setKeyG_self (d : List (String × Ref)) (k : String) (v : Ref) :
    lookupKeyG (setKeyG d k v) k = some v := by
  induction d with
  | nil => simp [setKeyG, lookupKeyG]
  | cons hd tl ih =>
    obtain ⟨k', v'⟩ := hd
    by_cases h : k' = k
    · simp [setKeyG, lookupKeyG, h]
    · simp [setKeyG, lookupKeyG, h, ih]

theorem lookupKeyG_setKeyG_ne (d : List (String × Ref)) (k q : String) (v : Ref)
    (hq : q ≠ k) : lookupKeyG (setKeyG d k v) q = lookupKeyG d q := by
  have hk : k ≠ q := Ne.symm hq
  induction d with
  | nil => simp [setKeyG, lookupKeyG, hk]
  | cons hd tl ih =>
    obtain ⟨k', v'⟩ := hd
    by_cases h : k' = k
    · subst h
      simp [setKeyG, lookupKeyG, hk]
    · simp [setKeyG, lookupKeyG, h, ih]

/-- `type(x).__name__` for a heap node. -/
def hTypeName : HNode → String
  | .obj _ => "dict"
  | .arr _ => "list"
  | .str _ => "str"
  | .int _ => "int"
  | .bool _ => "bool"
  | .null => "NoneType"

/-- The element check and extraction of `_merge_disabled_providers`,
against the heap: every referenced element must be a string node
(`_validate_string_list` followed by `[str(x) for x in typed_dp]`;
the first offender raises, naming its type). -/
def strListH (h : Heap) : List Ref → Except PyErr (List String)
  | [] => .ok []
  | r :: rest =>
      match hGet h r with
      | some (.str s) => (strListH h rest).map (fun tl => s :: tl)
      | some n =>
          .error (.invalidSchemaError "opencode.json"
            ("disabled_providers contains non-string: " ++ hTypeName n))
      | none =>
          .error (.invalidSchemaError "opencode.json"
            "disabled_providers contains a dangling reference")

/-- `_merge_disabled_providers` reading its list through the heap. -/
def mergeDisabledH (h : Heap) (dpNode : HNode) (new_providers : List String) :
    Except PyErr (List String) :=
  match dpNode with
  | .null => .ok (_dedup_preserve_order ([] ++ new_providers))
  | .arr refs =>
      match strListH h refs with
      | .error e => .error e
      | .ok items => .ok (_dedup_preserve_order (items ++ new_providers))
  | n =>
      .error (.invalidSchemaError "opencode.json"
        ("disabled_providers must be a list, got " ++ hTypeName n
          ++ ". This may indicate a hand-edited or corrupt config file."))

/-- Allocate one string node per element (the fresh Python `str`/list
elements produced while building the merged lists). -/
def allocStrs (h : Heap) : List String → Heap × List Ref
  | [] => (h, [])
  | s :: rest =>
      let p := alloc h (.str s)
      let q := allocStrs p.1 rest
      (q.1, p.2 :: q.2)

theorem allocStrs_le (h : Heap) (l : List String) : heapLE h (allocStrs h l).1 := by
  induction l generalizing h with
  | nil => exact heapLE_refl h
  | cons s rest ih =>
    simp only [allocStrs, alloc]
    exact heapLE_trans (by simp) (heapLE_append h [.str s]) (ih (h ++ [.str s]))

theorem allocStrs_length (h : Heap) (l : List String) :
    h.length ≤ (allocStrs h l).1.length := by
  induction l generalizing h with
  | nil => exact Nat.le_refl _
  | cons s rest ih =>
    simp only [allocStrs, alloc]
    exact le_trans (by simp) (ih (h ++ [.str s]))

/-- `merge_auth` (merge.py:55) as a heap transformer: `dict(existing)`
allocates the copy, the new entry value is a fresh dict of two fresh
leaves, and the single mutation `result[provider_id] = ...` hits only
the freshly allocated copy. -/
def mergeAuthH (h : Heap) (ex : Ref) (provider_id api_key : String) :
    Except PyErr (Heap × Ref) :=
  if provider_id = "" then
    .error (.validationError "provider_id" "Must not be empty")
  else if api_key = "" then
    .error (.validationError "api_key" "Must not be empty")
  else
    match hGet h ex with
    | some (.obj entries) =>
        let c := alloc h (.obj entries)
        let t := alloc c.1 (.str "api")
        let kk := alloc t.1 (.str api_key)
        let e := alloc kk.1 (.obj [("type", t.2), ("key", kk.2)])
        .ok (hSet e.1 c.2 (.obj (setKeyG entries provider_id e.2)), c.2)
    | _ => .error (.invalidSchemaError "auth.json" "existing is not a dict")

/-- `result.get("disabled_providers")` of merge.py:116, dereferenced
through the heap (`None` both for an absent key and a stored null). -/
def configDpNode (h1 : Heap) (entries : List (String × Ref)) : HNode :=
  match lookupKeyG entries "disabled_providers" with
  | none => .null
  | some rdp => (hGet h1 rdp).getD .null

/-- merge.py:121-126: `result.get("provider")`, copied shallowly when it
is a dict and defaulted to `{}` otherwise. -/
def configProviders (h4 : Heap) (entries1 : List (String × Ref)) : List (String × Ref) :=
  match lookupKeyG entries1 "provider" with
  | none => []
  | some rp =>
      match hGet h4 rp with
      | some (.obj pe) => pe
      | _ => []

/-- merge.py:116-119 after the merged list is computed: build the fresh
list object and assign `result["disabled_providers"]` (a mutation of the
fresh copy at `c2`).  Returns the updated heap and the copy's entries. -/
def configStage1 (h1 : Heap) (c2 : Ref) (entries : List (String × Ref))
    (merged_dp : List String) : Heap × List (String × Ref) :=
  let dpRefs := allocStrs h1 merged_dp
  let dpArr := alloc dpRefs.1 (.arr dpRefs.2)
  let entries1 := setKeyG entries "disabled_providers" dpArr.2
  (hSet dpArr.1 c2 (.obj entries1), entries1)

/-- merge.py:121-141: copy the provider map, build the provider block,
assign `providers[provider_id]` and `result["provider"]` (mutations of
the two fresh copies only). -/
def configStage2 (h4 : Heap) (c2 : Ref) (entries1 : List (String × Ref))
    (provider_id base_url : String) (dedupedwl : List String) : Heap × Ref :=
  let pv := alloc h4 (.obj (configProviders h4 entries1))
  let url := alloc pv.1 (.str base_url)
  let opts := alloc url.1 (.obj [("baseURL", url.2)])
  let wlRefs := allocStrs opts.1 dedupedwl
  let wlArr := alloc wlRefs.1 (.arr wlRefs.2)
  let block := alloc wlArr.1 (.obj [("options", opts.2), ("whitelist", wlArr.2)])
  let h11 := hSet block.1 pv.2 (.obj (setKeyG (configProviders h4 entries1) provider_id block.2))
  (hSet h11 c2 (.obj (setKeyG entries1 "provider" pv.2)), c2)

/-- `merge_config` (merge.py:85) as a heap transformer.  Mutations hit
only the two freshly allocated dict copies (`result` and `providers`);
every other step allocates. -/
def mergeConfigH (h : Heap) (ex : Ref) (provider_id resource_name : String)
    (whitelist disabled_providers : List String) : Except PyErr (Heap × Ref) :=
  if provider_id = "" then
    .error (.validationError "provider_id" "Must not be empty")
  else
    match validate_resource_name resource_name with
    | .error e => .error e
    | .ok _ =>
      match hGet h ex with
      | some (.obj entries) =>
        let c := alloc h (.obj entries)
        match mergeDisabledH c.1 (configDpNode c.1 entries) disabled_providers with
        | .error e => .error e
        | .ok merged_dp =>
          let base_url :=
            if provider_id = "azure" then pyFormatName _OPENAI_ENDPOINT_TEMPLATE resource_name
            else pyFormatName _COGS_ENDPOINT_TEMPLATE resource_name
          let s1 := configStage1 c.1 c.2 entries merged_dp
          .ok (configStage2 s1.1 c.2 s1.2 provider_id base_url
            (_dedup_preserve_order whitelist))
      | _ => .error (.invalidSchemaError "opencode.json" "existing is not a dict")

/-- Extension of a heap: all old cells intact and the heap at least as
long (so fresh addresses stay fresh). -/
def ExtFrom (h h' : Heap) : Prop := heapLE h h' ∧ h.length ≤ h'.length

theorem extFrom_refl (h : Heap) : ExtFrom h h := ⟨heapLE_refl h, Nat.le_refl _⟩

theorem extFrom_append {h h' : Heap} (t : Heap) (e : ExtFrom h h') :
    ExtFrom h (h' ++ t) := by
  refine ⟨fun i hi => ?_, le_trans e.2 (by simp)⟩
  rw [← e.1 i hi]
  exact heapLE_append h' t i (lt_of_lt_of_le hi e.2)

theorem extFrom_allocStrs {h h' : Heap} (l : List String) (e : ExtFrom h h') :
    ExtFrom h (allocStrs h' l).1 := by
  refine ⟨fun i hi => ?_, le_trans e.2 (allocStrs_length h' l)⟩
  rw [← e.1 i hi]
  exact allocStrs_le h' l i (lt_of_lt_of_le hi e.2)

theorem extFrom_set {h h' : Heap} (r : Ref) (n : HNode) (e : ExtFrom h h')
    (hr : h.length ≤ r) : ExtFrom h (hSet h' r n) := by
  refine ⟨fun i hi => ?_, ?_⟩
  · rw [← e.1 i hi]
    exact hGet_set_ne n (Nat.ne_of_lt (lt_of_lt_of_le hi hr))
  · simpa [hSet] using e.2

theorem configStage1_spec (h h1 : Heap) (c2 : Ref) (entries : List (String × Ref))
    (merged : List String) (he : ExtFrom h h1) (hge : h.length ≤ c2) (hlt : c2 < h1.length) :
    ExtFrom h (configStage1 h1 c2 entries merged).1
  ∧ h1.length ≤ (configStage1 h1 c2 entries merged).1.length
  ∧ hGet (configStage1 h1 c2 entries merged).1 c2
      = some (.obj (configStage1 h1 c2 entries merged).2)
  ∧ (∃ rdp, (configStage1 h1 c2 entries merged).2
      = setKeyG entries "disabled_providers" rdp)
  ∧ ∀ i, i < h1.length → i ≠ c2 →
      hGet (configStage1 h1 c2 entries merged).1 i = hGet h1 i := by
  simp only [configStage1, alloc]
  have hlen : h1.length ≤ ((allocStrs h1 merged).1 ++ [HNode.arr (allocStrs h1 merged).2]).length := by
    simpa using Nat.le_succ_of_le (allocStrs_length h1 merged)
  refine ⟨extFrom_set _ _ (extFrom_append _ (extFrom_allocStrs _ he)) hge, ?_, ?_, ⟨_, rfl⟩, ?_⟩
  · simpa [hSet] using hlen
  · exact hGet_set_self _ (lt_of_lt_of_le hlt hlen)
  · intro i hi hne
    rw [hGet_set_ne _ hne]
    rw [heapLE_append (allocStrs h1 merged).1 [HNode.arr (allocStrs h1 merged).2] i
      (lt_of_lt_of_le hi (allocStrs_length h1 merged))]
    exact allocStrs_le h1 merged i hi

theorem configStage2_spec (h h4 : Heap) (c2 : Ref) (entries1 : List (String × Ref))
    (pid burl : String) (dwl : List String)
    (he : ExtFrom h h4) (hge : h.length ≤ c2) (hlt : c2 < h4.length) :
    ExtFrom h (configStage2 h4 c2 entries1 pid burl dwl).1
  ∧ (configStage2 h4 c2 entries1 pid burl dwl).2 = c2
  ∧ hGet (configStage2 h4 c2 entries1 pid burl dwl).1 c2
      = some (.obj (setKeyG entries1 "provider" h4.length))
  ∧ ∃ rb, hGet (configStage2 h4 c2 entries1 pid burl dwl).1 h4.length
      = some (.obj (setKeyG (configProviders h4 entries1) pid rb)) := by
  simp only [configStage2, alloc]
  refine ⟨?_, ?_, ?_, ?_⟩
  · exact extFrom_set _ _ (extFrom_set _ _
      (extFrom_append _ (extFrom_append _ (extFrom_allocStrs _ (extFrom_append _
        (extFrom_append _ (extFrom_append _ he)))))) he.2) hge
  · trivial
  · refine hGet_set_self _ ?_
    rw [hSet, List.length_set]
    exact lt_of_lt_of_le hlt (extFrom_append _ (extFrom_append _ (extFrom_allocStrs _
      (extFrom_append _ (extFrom_append _ (extFrom_append _ (extFrom_refl h4))))))).2
  · refine ⟨_, Eq.trans (hGet_set_ne _ (Ne.symm (Nat.ne_of_lt hlt)))
      (hGet_set_self _ ?_)⟩
    exact lt_of_lt_of_le (by simp) (extFrom_append _ (extFrom_append _
      (extFrom_allocStrs _ (extFrom_append _ (extFrom_append _ (extFrom_refl _)))))).2

/-- C3: on an existing document, `merge_auth` and `merge_config` return
a freshly allocated document (address `h.length`, distinct from every
input object), leave every cell of the input heap — hence the input
document and everything reachable from it — unchanged, and the returned
document maps every key the tool does not own (`provider`,
`disabled_providers` at top level; the configured id inside the
provider map; the configured id in the auth document) to the very same
references as the input. -/
theorem merge_functions_no_mutation (h : Heap) (ex : Ref) (entries : List (String × Ref))
    (p k pid rn : String) (wl dps : List String)
    (hex : hGet h ex = some (.obj entries)) :
    (∀ h' r, mergeAuthH h ex p k = .ok (h', r) →
      heapLE h h' ∧ r = h.length ∧ hGet h' ex = some (.obj entries)
        ∧ ∃ out, hGet h' r = some (.obj out)
            ∧ ∀ q, q ≠ p → lookupKeyG out q = lookupKeyG entries q)
  ∧ (∀ h' r, mergeConfigH h ex pid rn wl dps = .ok (h', r) →
      heapLE h h' ∧ r = h.length ∧ hGet h' ex = some (.obj entries)
        ∧ ∃ out, hGet h' r = some (.obj out)
            ∧ (∀ q, q ≠ "disabled_providers" → q ≠ "provider" →
                lookupKeyG out q = lookupKeyG entries q)
            ∧ ∀ rp pe, lookupKeyG entries "provider" = some rp → rp < h.length →
                hGet h rp = some (.obj pe) →
                ∃ rpv pout, lookupKeyG out "provider" = some rpv
                  ∧ hGet h' rpv = some (.obj pout)
                  ∧ ∀ q, q ≠ pid → lookupKeyG pout q = lookupKeyG pe q) := by
  have hexlt : ex < h.length := by
    by_contra hcon
    rw [hGet, List.getElem?_eq_none (Nat.le_of_not_lt hcon)] at hex
    exact Option.noConfusion hex
  constructor
  · intro h' r hok
    by_cases hp : p = ""
    · simp [mergeAuthH, hp] at hok
    by_cases hk : k = ""
    · simp [mergeAuthH, hp, hk] at hok
    rw [mergeAuthH, if_neg hp, if_neg hk, hex] at hok
    simp only [alloc, Except.ok.injEq, Prod.mk.injEq] at hok
    obtain ⟨hh', hr⟩ := hok
    subst hh' hr
    have hext : ExtFrom h
        ((((h ++ [HNode.obj entries]) ++ [HNode.str "api"]) ++ [HNode.str k])
          ++ [HNode.obj [("type", (h ++ [HNode.obj entries]).length),
                         ("key", ((h ++ [HNode.obj entries]) ++ [HNode.str "api"]).length)]]) :=
      extFrom_append _ (extFrom_append _ (extFrom_append _ (extFrom_append _ (extFrom_refl h))))
    have hlen : h.length <
        ((((h ++ [HNode.obj entries]) ++ [HNode.str "api"]) ++ [HNode.str k])
          ++ [HNode.obj [("type", (h ++ [HNode.obj entries]).length),
                         ("key", ((h ++ [HNode.obj entries]) ++ [HNode.str "api"]).length)]]).length := by
      simp
    refine ⟨(extFrom_set _ _ hext (Nat.le_refl _)).1, rfl, ?_, ?_⟩
    · rw [(extFrom_set _ _ hext (Nat.le_refl _)).1 ex hexlt]
      exact hex
    · exact ⟨_, hGet_set_self _ hlen, fun q hq => lookupKeyG_setKeyG_ne entries p q _ hq⟩
  · intro h' r hok
    by_cases hpid : pid = ""
    · simp [mergeConfigH, hpid] at hok
    cases hval : validate_resource_name rn with
    | error e =>
      rw [mergeConfigH, if_neg hpid, hval] at hok
      exact Except.noConfusion hok
    | ok u =>
      cases u
      rw [mergeConfigH, if_neg hpid, hval, hex] at hok
      dsimp only [alloc] at hok
      cases hmd : mergeDisabledH (h ++ [HNode.obj entries])
          (configDpNode (h ++ [HNode.obj entries]) entries) dps with
      | error e =>
        rw [hmd] at hok
        exact Except.noConfusion hok
      | ok merged =>
        rw [hmd] at hok
        simp only [Except.ok.injEq] at hok
        obtain ⟨hh', hr⟩ := Prod.ext_iff.mp hok.symm
        subst hh'
        have hr2 : r = List.length h := hr.trans rfl
        subst hr2
        have he1 : ExtFrom h (h ++ [HNode.obj entries]) := extFrom_append _ (extFrom_refl h)
        have hlt1 : List.length h < (h ++ [HNode.obj entries]).length := by simp
        have S1 := configStage1_spec h (h ++ [HNode.obj entries]) (List.length h) entries
          merged he1 (Nat.le_refl _) hlt1
        have hltS1 : List.length h
            < (configStage1 (h ++ [HNode.obj entries]) (List.length h) entries merged).1.length :=
          lt_of_lt_of_le hlt1 S1.2.1
        have S2 := configStage2_spec h
          (configStage1 (h ++ [HNode.obj entries]) (List.length h) entries merged).1
          (List.length h)
          (configStage1 (h ++ [HNode.obj entries]) (List.length h) entries merged).2
          pid
          (if pid = "azure" then pyFormatName _OPENAI_ENDPOINT_TEMPLATE rn
           else pyFormatName _COGS_ENDPOINT_TEMPLATE rn)
          (_dedup_preserve_order wl) S1.1 (Nat.le_refl _) hltS1
        obtain ⟨rdp, hdp⟩ := S1.2.2.2.1
        refine ⟨S2.1.1, rfl, ?_, ?_⟩
        · rw [S2.1.1 ex hexlt]
          exact hex
        · refine ⟨_, S2.2.2.1, ?_, ?_⟩
          · intro q hq1 hq2
            rw [lookupKeyG_setKeyG_ne _ _ _ _ hq2, hdp, lookupKeyG_setKeyG_ne _ _ _ _ hq1]
          · intro rp pe hrp hrplt hrpe
            obtain ⟨rb, hrb⟩ := S2.2.2.2
            have hlook1 : lookupKeyG
                (configStage1 (h ++ [HNode.obj entries]) (List.length h) entries merged).2
                "provider" = some rp := by
              rw [hdp, lookupKeyG_setKeyG_ne _ _ _ _ (by decide), hrp]
            have hget4 : hGet
                (configStage1 (h ++ [HNode.obj entries]) (List.length h) entries merged).1 rp
                = some (.obj pe) := by
              rw [S1.2.2.2.2 rp (lt_trans hrplt hlt1) (Nat.ne_of_lt hrplt)]
              rw [heapLE_append h [HNode.obj entries] rp hrplt]
              exact hrpe
            have hprov : configProviders
                (configStage1 (h ++ [HNode.obj entries]) (List.length h) entries merged).1
                (configStage1 (h ++ [HNode.obj entries]) (List.length h) entries merged).2
                = pe := by
              rw [configProviders, hlook1]
              simp only [hget4]
            rw [hprov] at hrb
            refine ⟨_, _, lookupKeyG_setKeyG_self _ _ _, hrb, ?_⟩
            intro q hq
            exact lookupKeyG_setKeyG_ne _ _ _ _ hq

/-- Witness for C3 on a concrete three-object heap whose document has a
foreign key `"keep"` and a provider map holding a foreign entry. -/
theorem merge_functions_no_mutation_witness :
    hGet [HNode.obj [("keep", 1), ("provider", 2)], HNode.str "v", HNode.obj [("other", 1)]] 0
      = some (.obj [("keep", 1), ("provider", 2)])
  ∧ (heapLE [HNode.obj [("keep", 1), ("provider", 2)], HNode.str "v", HNode.obj [("other", 1)]]
        [HNode.obj [("keep", 1), ("provider", 2)], HNode.str "v", HNode.obj [("other", 1)],
         HNode.obj [("keep", 1), ("provider", 2), ("az", 6)], HNode.str "api", HNode.str "sk",
         HNode.obj [("type", 4), ("key", 5)]]
      ∧ 3 = ([HNode.obj [("keep", 1), ("provider", 2)], HNode.str "v",
              HNode.obj [("other", 1)]] : Heap).length
      ∧ hGet [HNode.obj [("keep", 1), ("provider", 2)], HNode.str "v", HNode.obj [("other", 1)],
              HNode.obj [("keep", 1), ("provider", 2), ("az", 6)], HNode.str "api", HNode.str "sk",
              HNode.obj [("type", 4), ("key", 5)]] 0
          = some (.obj [("keep", 1), ("provider", 2)])
      ∧ ∃ out, hGet [HNode.obj [("keep", 1), ("provider", 2)], HNode.str "v",
              HNode.obj [("other", 1)],
              HNode.obj [("keep", 1), ("provider", 2), ("az", 6)], HNode.str "api", HNode.str "sk",
              HNode.obj [("type", 4), ("key", 5)]] 3 = some (.obj out)
          ∧ ∀ q, q ≠ "az" → lookupKeyG out q
              = lookupKeyG [("keep", 1), ("provider", 2)] q)
  ∧ (heapLE [HNode.obj [("keep", 1), ("provider", 2)], HNode.str "v", HNode.obj [("other", 1)]]
        [HNode.obj [("keep", 1), ("provider", 2)], HNode.str "v", HNode.obj [("other", 1)],
         HNode.obj [("keep", 1), ("provider", 5), ("disabled_providers", 4)], HNode.arr [],
         HNode.obj [("other", 1), ("p", 9)],
         HNode.str "https://myres.cognitiveservices.azure.com/openai",
         HNode.obj [("baseURL", 6)], HNode.arr [], HNode.obj [("options", 7), ("whitelist", 8)]]
      ∧ 3 = ([HNode.obj [("keep", 1), ("provider", 2)], HNode.str "v",
              HNode.obj [("other", 1)]] : Heap).length
      ∧ hGet [HNode.obj [("keep", 1), ("provider", 2)], HNode.str "v", HNode.obj [("other", 1)],
              HNode.obj [("keep", 1), ("provider", 5), ("disabled_providers", 4)], HNode.arr [],
              HNode.obj [("other", 1), ("p", 9)],
              HNode.str "https://myres.cognitiveservices.azure.com/openai",
              HNode.obj [("baseURL", 6)], HNode.arr [],
              HNode.obj [("options", 7), ("whitelist", 8)]] 0
          = some (.obj [("keep", 1), ("provider", 2)])
      ∧ ∃ out, hGet [HNode.obj [("keep", 1), ("provider", 2)], HNode.str "v",
              HNode.obj [("other", 1)],
              HNode.obj [("keep", 1), ("provider", 5), ("disabled_providers", 4)], HNode.arr [],
              HNode.obj [("other", 1), ("p", 9)],
              HNode.str "https://myres.cognitiveservices.azure.com/openai",
              HNode.obj [("baseURL", 6)], HNode.arr [],
              HNode.obj [("options", 7), ("whitelist", 8)]] 3 = some (.obj out)
          ∧ (∀ q, q ≠ "disabled_providers" → q ≠ "provider" →
              lookupKeyG out q = lookupKeyG [("keep", 1), ("provider", 2)] q)
          ∧ ∀ rp pe, lookupKeyG [("keep", 1), ("provider", 2)] "provider" = some rp →
              rp < ([HNode.obj [("keep", 1), ("provider", 2)], HNode.str "v",
                     HNode.obj [("other", 1)]] : Heap).length →
              hGet [HNode.obj [("keep", 1), ("provider", 2)], HNode.str "v",
                    HNode.obj [("other", 1)]] rp = some (.obj pe) →
              ∃ rpv pout, lookupKeyG out "provider" = some rpv
                ∧ hGet [HNode.obj [("keep", 1), ("provider", 2)], HNode.str "v",
                        HNode.obj [("other", 1)],
                        HNode.obj [("keep", 1), ("provider", 5), ("disabled_providers", 4)],
                        HNode.arr [], HNode.obj [("other", 1), ("p", 9)],
                        HNode.str "https://myres.cognitiveservices.azure.com/openai",
                        HNode.obj [("baseURL", 6)], HNode.arr [],
                        HNode.obj [("options", 7), ("whitelist", 8)]] rpv = some (.obj pout)
                ∧ ∀ q, q ≠ "p" → lookupKeyG pout q = lookupKeyG pe q) :=
  ⟨rfl,
   (merge_functions_no_mutation
      [HNode.obj [("keep", 1), ("provider", 2)], HNode.str "v", HNode.obj [("other", 1)]]
      0 [("keep", 1), ("provider", 2)] "az" "sk" "p" "myres" [] [] rfl).1 _ _ rfl,
   (merge_functions_no_mutation
      [HNode.obj [("keep", 1), ("provider", 2)], HNode.str "v", HNode.obj [("other", 1)]]
      0 [("keep", 1), ("provider", 2)] "az" "sk" "p" "myres" [] [] rfl).2 _ _ rfl⟩

/-! ## io.py: serializer, JSONC comment stripper, parser

`atomic_write_json` serializes with
`json.dumps(dict(data), indent=2, ensure_ascii=False) + "\n"` and writes
UTF-8 without BOM; `read_json_object` reads with BOM stripping, strips
`//` comments outside strings, and parses with `json.loads`, rejecting
non-object top levels.  The content-level round trip is modelled over
character lists; the byte/file layer (tempfile, fsync, rename) adds no
content transformation. -/

/-- The decimal digit character for `d < 10`. -/
def digitChar (d : Nat) : Char := Char.ofNat (48 + d)

/-- Decimal digits of a natural number, most significant first
(CPython's `int.__repr__`). -/
def natDigits (n : Nat) : List Char :=
  if _h : n < 10 then [digitChar n]
  else natDigits (n / 10) ++ [digitChar (n % 10)]
decreasing_by exact Nat.div_lt_self (by omega) (by omega)

/-- Decimal form of an integer. -/
def intDigits (i : Int) : List Char :=
  if i < 0 then '-' :: natDigits i.natAbs else natDigits i.natAbs

/-- Lowercase hexadecimal digit, as emitted in `\u00xy` escapes. -/
def hexDigitChar (n : Nat) : Char :=
  if n < 10 then Char.ofNat (48 + n) else Char.ofNat (87 + n)

/-- `json.dumps` escaping of one character with `ensure_ascii=False`:
quote, backslash and control characters are escaped, everything else
(including non-ASCII) passes through raw. -/
def escChar (c : Char) : List Char :=
  if c = '"' then ['\\', '"']
  else if c = '\\' then ['\\', '\\']
  else if c = '\n' then ['\\', 'n']
  else if c = '\t' then ['\\', 't']
  else if c = '\r' then ['\\', 'r']
  else if c = Char.ofNat 8 then ['\\', 'b']
  else if c = Char.ofNat 12 then ['\\', 'f']
  else if c.toNat < 32 then
    ['\\', 'u', '0', '0', hexDigitChar (c.toNat / 16), hexDigitChar (c.toNat % 16)]
  else [c]

/-- The escaped body of a JSON string literal. -/
def escBody (s : String) : List Char :=
  s.data.foldr (fun c acc => escChar c ++ acc) []

/-- A JSON string literal. -/
def escString (s : String) : List Char := '"' :: escBody s ++ ['"']

/-- `indent` spaces. -/
def spaces (n : Nat) : List Char := List.replicate n ' '

mutual
/-- `json.dumps(v, indent=2, ensure_ascii=False)` at nesting indent
`ind` (the indent of the line a member of `v` would be printed on is
`ind + 2`). -/
def printJ (ind : Nat) : JValue → List Char
  | .obj [] => ['\x7b', '\x7d']
  | .obj (kv :: rest) =>
      '\x7b' :: '\n' :: (printMembers (ind + 2) kv rest ++ '\n' :: spaces ind ++ ['\x7d'])
  | .arr [] => ['[', ']']
  | .arr (v :: rest) =>
      '[' :: '\n' :: (printItems (ind + 2) v rest ++ '\n' :: spaces ind ++ [']'])
  | .str s => escString s
  | .int i => intDigits i
  | .bool true => ['t', 'r', 'u', 'e']
  | .bool false => ['f', 'a', 'l', 's', 'e']
  | .null => ['n', 'u', 'l', 'l']
termination_by v => sizeOf v
decreasing_by all_goals (simp; try omega)

/-- The members of a non-empty object, comma-newline separated. -/
def printMembers (ind : Nat) : String × JValue → List (String × JValue) → List Char
  | (k, v), [] => spaces ind ++ escString k ++ ':' :: ' ' :: printJ ind v
  | (k, v), kv2 :: rest =>
      spaces ind ++ escString k ++ ':' :: ' ' ::
        (printJ ind v ++ ',' :: '\n' :: printMembers ind kv2 rest)
termination_by kv rest => 1 + sizeOf kv + sizeOf rest
decreasing_by all_goals (simp; try omega)

/-- The items of a non-empty array, comma-newline separated. -/
def printItems (ind : Nat) : JValue → List JValue → List Char
  | v, [] => spaces ind ++ printJ ind v
  | v, v2 :: rest => spaces ind ++ (printJ ind v ++ ',' :: '\n' :: printItems ind v2 rest)
termination_by v rest => 1 + sizeOf v + sizeOf rest
decreasing_by all_goals (simp; try omega)
end

/-- The full file content `atomic_write_json` produces (io.py:139):
`json.dumps(dict(data), indent=2, ensure_ascii=False) + "\n"`. -/
def writeContent (d : Doc) : List Char := printJ 0 (.obj d) ++ ['\n']

/-- JSON whitespace. -/
def isWsChar (c : Char) : Bool := c = ' ' || c = '\t' || c = '\n' || c = '\r'

/-- Skip insignificant whitespace. -/
def skipWs (cs : List Char) : List Char := cs.dropWhile isWsChar

/-- ASCII decimal digit. -/
def isDigitChar (c : Char) : Bool := '0' ≤ c && c ≤ '9'

/-- Greedily consume decimal digits, accumulating their value. -/
def parseNatFrom (acc : Nat) : List Char → Nat × List Char
  | [] => (acc, [])
  | c :: rest =>
      if isDigitChar c then parseNatFrom (acc * 10 + (c.toNat - 48)) rest
      else (acc, c :: rest)

/-- Value of a hexadecimal digit. -/
def hexVal (c : Char) : Option Nat :=
  if '0' ≤ c ∧ c ≤ '9' then some (c.toNat - 48)
  else if 'a' ≤ c ∧ c ≤ 'f' then some (c.toNat - 87)
  else if 'A' ≤ c ∧ c ≤ 'F' then some (c.toNat - 55)
  else none

/-- Decode a JSON string-literal body (after the opening quote) up to
the closing quote, `json.loads` strict mode: raw control characters are
rejected, the standard escapes and `\uXXXX` are decoded.  (Surrogate
pairs never arise here: the writer escapes only control characters.) -/
def parseStrBody : List Char → Option (List Char × List Char)
  | [] => none
  | '"' :: rest => some ([], rest)
  | '\\' :: 'u' :: h1 :: h2 :: h3 :: h4 :: rest =>
      match hexVal h1, hexVal h2, hexVal h3, hexVal h4 with
      | some a, some b, some c, some d =>
          (parseStrBody rest).map fun p =>
            (Char.ofNat (((a * 16 + b) * 16 + c) * 16 + d) :: p.1, p.2)
      | _, _, _, _ => none
  | '\\' :: e :: rest =>
      match e with
      | '"' => (parseStrBody rest).map fun p => ('"' :: p.1, p.2)
      | '\\' => (parseStrBody rest).map fun p => ('\\' :: p.1, p.2)
      | '/' => (parseStrBody rest).map fun p => ('/' :: p.1, p.2)
      | 'b' => (parseStrBody rest).map fun p => (Char.ofNat 8 :: p.1, p.2)
      | 'f' => (parseStrBody rest).map fun p => (Char.ofNat 12 :: p.1, p.2)
      | 'n' => (parseStrBody rest).map fun p => ('\n' :: p.1, p.2)
      | 'r' => (parseStrBody rest).map fun p => ('\r' :: p.1, p.2)
      | 't' => (parseStrBody rest).map fun p => ('\t' :: p.1, p.2)
      | _ => none
  | c :: rest =>
      if c.toNat < 32 then none
      else (parseStrBody rest).map fun p => (c :: p.1, p.2)

/-- Whether a number literal would continue at this character (a `.` or
exponent means a float, which is outside this embedding of documents). -/
def numberContinues : List Char → Bool
  | [] => false
  | c :: _ => c = '.' || c = 'e' || c = 'E'

mutual
/-- `json.loads`' recursive-descent value scanner (fuel-indexed; the
fuel is an artifact of the embedding, `cs.length + 1` always
suffices). -/
def parseValue : Nat → List Char → Option (JValue × List Char)
  | 0, _ => none
  | Nat.succ f, cs =>
      match skipWs cs with
      | '\x7b' :: rest =>
          match skipWs rest with
          | '\x7d' :: r2 => some (.obj [], r2)
          | _ => parseMembers f [] rest
      | '[' :: rest =>
          match skipWs rest with
          | ']' :: r2 => some (.arr [], r2)
          | _ => parseElems f [] rest
      | '"' :: rest => (parseStrBody rest).map fun p => (.str (String.mk p.1), p.2)
      | 't' :: 'r' :: 'u' :: 'e' :: rest => some (.bool true, rest)
      | 'f' :: 'a' :: 'l' :: 's' :: 'e' :: rest => some (.bool false, rest)
      | 'n' :: 'u' :: 'l' :: 'l' :: rest => some (.null, rest)
      | '-' :: c :: rest =>
          if isDigitChar c then
            let p := parseNatFrom (c.toNat - 48) rest
            if numberContinues p.2 then none else some (.int (-(p.1 : Int)), p.2)
          else none
      | c :: rest =>
          if isDigitChar c then
            let p := parseNatFrom (c.toNat - 48) rest
            if numberContinues p.2 then none else some (.int (p.1 : Int), p.2)
          else none
      | [] => none

/-- The member loop of the object scanner; `json.loads` builds the dict
by repeated assignment, so a duplicate key overwrites in place. -/
def parseMembers : Nat → Doc → List Char → Option (JValue × List Char)
  | 0, _, _ => none
  | Nat.succ f, acc, cs =>
      match skipWs cs with
      | '"' :: rest =>
          match parseStrBody rest with
          | none => none
          | some (kb, r1) =>
              match skipWs r1 with
              | ':' :: r2 =>
                  match parseValue f r2 with
                  | none => none
                  | some (v, r3) =>
                      match skipWs r3 with
                      | ',' :: r4 => parseMembers f (setKey acc (String.mk kb) v) r4
                      | '\x7d' :: r4 => some (.obj (setKey acc (String.mk kb) v), r4)
                      | _ => none
              | _ => none
      | _ => none

/-- The element loop of the array scanner. -/
def parseElems : Nat → List JValue → List Char → Option (JValue × List Char)
  | 0, _, _ => none
  | Nat.succ f, acc, cs =>
      match parseValue f cs with
      | none => none
      | some (v, r1) =>
          match skipWs r1 with
          | ',' :: r2 => parseElems f (acc ++ [v]) r2
          | ']' :: r2 => some (.arr (acc ++ [v]), r2)
          | _ => none
end

/-- `json.loads`: parse one value, allow only trailing whitespace. -/
def pyJsonLoads (cs : List Char) : Option JValue :=
  match parseValue (cs.length + 1) cs with
  | some (v, rest) => if skipWs rest = [] then some v else none
  | none => none

/-- The greedy, deterministic match of the string alternative
`"(?:[^"\\]|\\.)*"` of `_strip_jsonc_comments` (io.py:66), after an
opening quote: returns the matched body and the text after the closing
quote, or `none` when the alternative cannot match here (without
`re.DOTALL` the `.` of `\\.` never matches a newline, so a backslash
followed by a raw newline or by the end of the text kills the
alternative; a raw newline on its own is matched by `[^"\\]`). -/
def strSpan : List Char → Option (List Char × List Char)
  | [] => none
  | '"' :: rest => some ([], rest)
  | '\\' :: c :: rest =>
      if c = '\n' then none
      else (strSpan rest).map fun p => ('\\' :: c :: p.1, p.2)
  | '\\' :: [] => none
  | c :: rest => (strSpan rest).map fun p => (c :: p.1, p.2)

theorem strSpan_shorter_aux : ∀ (n : Nat) (cs : List Char), cs.length ≤ n →
    ∀ b r, strSpan cs = some (b, r) → r.length < cs.length := by
  intro n
  induction n with
  | zero =>
    intro cs hlen b r h
    have hcs : cs = [] := List.eq_nil_of_length_eq_zero (by omega)
    subst hcs
    exact absurd h (by rw [strSpan]; simp)
  | succ n ih =>
    intro cs hlen b r h
    cases cs with
    | nil => exact absurd h (by rw [strSpan]; simp)
    | cons c rest =>
      by_cases hq : c = '"'
      · subst hq
        rw [strSpan] at h
        simp at h
        obtain ⟨-, rfl⟩ := h
        simp
      by_cases hb : c = '\\'
      · subst hb
        cases rest with
        | nil => exact absurd h (by rw [strSpan]; simp)
        | cons c2 t2 =>
          rw [strSpan] at h
          by_cases hnl : c2 = '\n'
          · rw [if_pos hnl] at h
            exact absurd h (by simp)
          · rw [if_neg hnl] at h
            rcases hsp : strSpan t2 with _ | ⟨b0, r0⟩ <;> rw [hsp] at h
            · simp at h
            · simp at h
              obtain ⟨-, hr⟩ := h
              have h0 := ih t2 (by simp at hlen ⊢; omega) b0 r0 hsp
              have hlr : r0.length = r.length := by rw [hr]
              simp only [List.length_cons]
              omega
      · rw [strSpan] at h
        rotate_left
        · exact hq
        · intro _ _ hc _
          exact hb hc
        · intro hc _
          exact hb hc
        rcases hsp : strSpan rest with _ | ⟨b0, r0⟩ <;> rw [hsp] at h
        · simp at h
        · simp at h
          obtain ⟨-, hr⟩ := h
          have h0 := ih rest (by simp at hlen ⊢; omega) b0 r0 hsp
          have hlr : r0.length = r.length := by rw [hr]
          simp only [List.length_cons]
          omega

theorem strSpan_shorter : ∀ cs b r, strSpan cs = some (b, r) → r.length < cs.length :=
  fun cs => strSpan_shorter_aux cs.length cs le_rfl

theorem length_dropWhile_le (p : Char → Bool) (l : List Char) :
    (l.dropWhile p).length ≤ l.length := by
  induction l with
  | nil => simp
  | cons a t ih =>
    cases hp : p a <;> simp [List.dropWhile, hp] <;> omega

/-- Drop a comment's text: `//[^\n]*` stops before the newline. -/
def dropComment (cs : List Char) : List Char := cs.dropWhile (fun c => c ≠ '\n')

/-- `_strip_jsonc_comments` (io.py:52): `re.sub` scans left to right;
at each position the string alternative is tried first (and kept), then
the comment alternative (and removed); otherwise the character is
emitted and the scan advances. -/
def stripComments (cs : List Char) : List Char :=
  match hcs : cs with
  | [] => []
  | '"' :: rest =>
      match hsp : strSpan rest with
      | some p => '"' :: p.1 ++ '"' :: stripComments p.2
      | none => '"' :: stripComments rest
  | '/' :: '/' :: rest => stripComments (dropComment rest)
  | c :: rest => c :: stripComments rest
termination_by cs.length
decreasing_by
  · exact strSpan_shorter rest p.1 p.2 (by rw [hsp]) |>.trans (by simp)
  · simp
  · simp only [dropComment, List.length_cons]
    have := length_dropWhile_le (fun c => c ≠ '\n') rest
    omega
  · simp

/-- `read_json_object` (io.py:77) at the content level: `none` stands
for a nonexistent path (→ empty document), otherwise the text (already
BOM-stripped by the `utf-8-sig` decoding) is comment-stripped and
parsed, and a non-object top level is rejected. -/
def readJsonText (t : Option (List Char)) : Except PyErr JValue :=
  match t with
  | none => .ok (.obj [])
  | some cs =>
      match pyJsonLoads (stripComments cs) with
      | none => .error (.invalidJsonError "path" "invalid JSON")
      | some v =>
          match v with
          | .obj _ => .ok v
          | _ => .error (.invalidSchemaError "path" "Expected a JSON object (dict)")

/-! ## Lemmas: the comment stripper on printed output -/

/-- A character the stripper simply copies: not a quote, not a slash. -/
def plainChar (c : Char) : Prop := c ≠ '"' ∧ c ≠ '/'

theorem stripComments_plain (P : List Char) (t : List Char)
    (hP : ∀ c ∈ P, plainChar c) :
    stripComments (P ++ t) = P ++ stripComments t := by
  induction P with
  | nil => simp
  | cons c cs ih =>
    obtain ⟨hq, hs⟩ := hP c (by simp)
    rw [List.cons_append, stripComments]
    rotate_left
    · exact hq
    · intro _ hc _
      exact hs hc
    rw [ih (fun x hx => hP x (by simp [hx]))]
    simp

theorem hexDigitChar_plain (n : Nat) (h : n < 16) :
    hexDigitChar n ≠ '"' ∧ hexDigitChar n ≠ '\\' := by
  interval_cases n <;> simp [hexDigitChar] <;> decide

theorem strSpan_esc2 (c : Char) (hc : c ≠ '\n') (u : List Char) :
    strSpan ('\\' :: c :: u) = (strSpan u).map fun p => ('\\' :: c :: p.1, p.2) := by
  rw [strSpan, if_neg hc]

theorem strSpan_plainc (c : Char) (hq : c ≠ '"') (hs : c ≠ '\\') (u : List Char) :
    strSpan (c :: u) = (strSpan u).map fun p => (c :: p.1, p.2) := by
  rw [strSpan]
  case x_1 => exact hq
  case x_2 =>
    intro _ _ hc _
    exact hs hc
  case x_3 =>
    intro hc _
    exact hs hc

theorem strSpan_escChar (c : Char) (u : List Char) :
    strSpan (escChar c ++ u) = (strSpan u).map fun p => (escChar c ++ p.1, p.2) := by
  by_cases h1 : c = '"'
  · have he : escChar c = ['\\', '"'] := by simp [escChar, h1]
    rw [he]
    exact strSpan_esc2 '"' (by decide) u
  by_cases h2 : c = '\\'
  · have he : escChar c = ['\\', '\\'] := by simp [escChar, h1, h2]
    rw [he]
    exact strSpan_esc2 '\\' (by decide) u
  by_cases h3 : c = '\n'
  · have he : escChar c = ['\\', 'n'] := by simp [escChar, h1, h2, h3]
    rw [he]
    exact strSpan_esc2 'n' (by decide) u
  by_cases h4 : c = '\t'
  · have he : escChar c = ['\\', 't'] := by simp [escChar, h1, h2, h3, h4]
    rw [he]
    exact strSpan_esc2 't' (by decide) u
  by_cases h5 : c = '\r'
  · have he : escChar c = ['\\', 'r'] := by simp [escChar, h1, h2, h3, h4, h5]
    rw [he]
    exact strSpan_esc2 'r' (by decide) u
  by_cases h6 : c = Char.ofNat 8
  · have he : escChar c = ['\\', 'b'] := by simp [escChar, h1, h2, h3, h4, h5, h6]
    rw [he]
    exact strSpan_esc2 'b' (by decide) u
  by_cases h7 : c = Char.ofNat 12
  · have he : escChar c = ['\\', 'f'] := by simp [escChar, h1, h2, h3, h4, h5, h6, h7]
    rw [he]
    exact strSpan_esc2 'f' (by decide) u
  by_cases h8 : c.toNat < 32
  · have he : escChar c
        = ['\\', 'u', '0', '0', hexDigitChar (c.toNat / 16), hexDigitChar (c.toNat % 16)] := by
      simp [escChar, h1, h2, h3, h4, h5, h6, h7, h8]
    obtain ⟨ha1, ha2⟩ := hexDigitChar_plain (c.toNat / 16) (by omega)
    obtain ⟨hb1, hb2⟩ := hexDigitChar_plain (c.toNat % 16) (by omega)
    rw [he]
    show strSpan ('\\' :: 'u' :: '0' :: '0' :: hexDigitChar (c.toNat / 16)
        :: hexDigitChar (c.toNat % 16) :: u) = _
    rw [strSpan_esc2 'u' (by decide), strSpan_plainc '0' (by decide) (by decide),
      strSpan_plainc '0' (by decide) (by decide),
      strSpan_plainc _ ha1 ha2, strSpan_plainc _ hb1 hb2]
    cases strSpan u <;> simp
  · have he : escChar c = [c] := by simp [escChar, h1, h2, h3, h4, h5, h6, h7, h8]
    rw [he]
    show strSpan (c :: u) = _
    rw [strSpan_plainc c h1 h2]
    cases strSpan u <;> simp

theorem strSpan_escBody_aux (t : List Char) :
    ∀ l : List Char,
      strSpan (l.foldr (fun c acc => escChar c ++ acc) [] ++ '"' :: t)
        = some (l.foldr (fun c acc => escChar c ++ acc) [], t) := by
  intro l
  induction l with
  | nil =>
    simp only [List.foldr_nil, List.nil_append]
    rw [strSpan]
  | cons c cs ih =>
    simp only [List.foldr_cons, List.append_assoc]
    rw [strSpan_escChar, ih]
    rfl

theorem strSpan_escBody (s : String) (t : List Char) :
    strSpan (escBody s ++ '"' :: t) = some (escBody s, t) :=
  strSpan_escBody_aux t s.data

theorem stripComments_escString (s : String) (t : List Char) :
    stripComments (escString s ++ t) = escString s ++ stripComments t := by
  show stripComments ('"' :: (escBody s ++ ['"']) ++ t) = _
  rw [List.cons_append, List.append_assoc, List.cons_append, List.nil_append, stripComments]
  rw [strSpan_escBody]
  simp [escString]

instance : DecidablePred plainChar := fun c =>
  decidable_of_iff (c ≠ '"' ∧ c ≠ '/') Iff.rfl

theorem stripComments_pchar (c : Char) (hc : plainChar c) (t : List Char) :
    stripComments (c :: t) = c :: stripComments t := by
  rw [stripComments]
  all_goals first
    | exact hc.1
    | (intro _ hc2 _; exact hc.2 hc2)

theorem stripComments_spaces (n : Nat) (t : List Char) :
    stripComments (spaces n ++ t) = spaces n ++ stripComments t :=
  stripComments_plain (spaces n) t (by
    intro c hc
    simp only [spaces] at hc
    have hcs := List.eq_of_mem_replicate hc
    subst hcs
    decide)

theorem natDigits_plain (n : Nat) : ∀ c ∈ natDigits n, plainChar c := by
  induction n using natDigits.induct with
  | case1 n h =>
    intro c hc
    rw [natDigits, dif_pos h] at hc
    simp at hc
    subst hc
    interval_cases n <;> decide
  | case2 n h ih =>
    intro c hc
    rw [natDigits, dif_neg h] at hc
    simp only [List.mem_append, List.mem_singleton] at hc
    rcases hc with hc | hc
    · exact ih c hc
    · subst hc
      have hm : n % 10 < 10 := Nat.mod_lt _ (by omega)
      interval_cases hv : (n % 10) <;> decide

theorem intDigits_plain (i : Int) : ∀ c ∈ intDigits i, plainChar c := by
  intro c hc
  rw [intDigits] at hc
  split at hc
  · simp only [List.mem_cons] at hc
    rcases hc with hc | hc
    · subst hc; decide
    · exact natDigits_plain _ c hc
  · exact natDigits_plain _ c hc

mutual
theorem strip_printJ (v : JValue) : ∀ ind t,
    stripComments (printJ ind v ++ t) = printJ ind v ++ stripComments t := by
  intro ind t
  cases v with
  | obj kvs =>
    cases kvs with
    | nil =>
      rw [printJ]
      exact stripComments_plain _ t (by decide)
    | cons kv rest =>
      rw [printJ]
      simp only [List.cons_append, List.append_assoc, List.nil_append]
      rw [stripComments_pchar _ (by decide), stripComments_pchar _ (by decide),
        strip_printMembers kv rest (ind + 2), stripComments_pchar _ (by decide),
        stripComments_spaces, stripComments_pchar _ (by decide)]
  | arr vs =>
    cases vs with
    | nil =>
      rw [printJ]
      exact stripComments_plain _ t (by decide)
    | cons v0 rest =>
      rw [printJ]
      simp only [List.cons_append, List.append_assoc, List.nil_append]
      rw [stripComments_pchar _ (by decide), stripComments_pchar _ (by decide),
        strip_printItems v0 rest (ind + 2), stripComments_pchar _ (by decide),
        stripComments_spaces, stripComments_pchar _ (by decide)]
  | str s =>
    rw [printJ]
    exact stripComments_escString s t
  | int i =>
    rw [printJ]
    exact stripComments_plain _ t (intDigits_plain i)
  | bool b =>
    cases b <;> rw [printJ] <;> exact stripComments_plain _ t (by decide)
  | null =>
    rw [printJ]
    exact stripComments_plain _ t (by decide)
termination_by sizeOf v
decreasing_by all_goals (simp; try omega)

theorem strip_printMembers (kv : String × JValue) (kvs : List (String × JValue)) : ∀ ind t,
    stripComments (printMembers ind kv kvs ++ t) = printMembers ind kv kvs ++ stripComments t := by
  intro ind t
  obtain ⟨k, v⟩ := kv
  cases kvs with
  | nil =>
    rw [printMembers]
    simp only [List.cons_append, List.append_assoc, List.nil_append]
    rw [stripComments_spaces, stripComments_escString, stripComments_pchar _ (by decide),
      stripComments_pchar _ (by decide), strip_printJ v ind]
  | cons kv2 rest =>
    rw [printMembers]
    simp only [List.cons_append, List.append_assoc, List.nil_append]
    rw [stripComments_spaces, stripComments_escString, stripComments_pchar _ (by decide),
      stripComments_pchar _ (by decide), strip_printJ v ind,
      stripComments_pchar _ (by decide), stripComments_pchar _ (by decide),
      strip_printMembers kv2 rest ind]
termination_by 1 + sizeOf kv + sizeOf kvs
decreasing_by all_goals (simp; try omega)

theorem strip_printItems (v : JValue) (vs : List JValue) : ∀ ind t,
    stripComments (printItems ind v vs ++ t) = printItems ind v vs ++ stripComments t := by
  intro ind t
  cases vs with
  | nil =>
    rw [printItems]
    simp only [List.append_assoc]
    rw [stripComments_spaces, strip_printJ v ind]
  | cons v2 rest =>
    rw [printItems]
    simp only [List.cons_append, List.append_assoc, List.nil_append]
    rw [stripComments_spaces, strip_printJ v ind, stripComments_pchar _ (by decide),
      stripComments_pchar _ (by decide), strip_printItems v2 rest ind]
termination_by 1 + sizeOf v + sizeOf vs
decreasing_by all_goals (simp; try omega)
end

theorem stripComments_writeContent (d : Doc) :
    stripComments (writeContent d) = writeContent d := by
  rw [writeContent, strip_printJ (.obj d) 0 ['\n']]
  congr 1
  rw [stripComments_pchar _ (by decide), stripComments]

/-! ## Lemmas: the parser on printed output -/

theorem skipWs_cons_ws {c : Char} (hc : isWsChar c = true) (t : List Char) :
    skipWs (c :: t) = skipWs t := by
  simp [skipWs, List.dropWhile, hc]

theorem skipWs_cons_not {c : Char} (hc : isWsChar c = false) (t : List Char) :
    skipWs (c :: t) = c :: t := by
  simp [skipWs, List.dropWhile, hc]

theorem skipWs_spaces (n : Nat) (t : List Char) : skipWs (spaces n ++ t) = skipWs t := by
  induction n with
  | zero => simp [spaces]
  | succ m ih =>
    have : spaces (m + 1) = ' ' :: spaces m := by simp [spaces, List.replicate]
    rw [this, List.cons_append, skipWs_cons_ws (by decide), ih]

theorem digitChar_spec (d : Nat) (h : d < 10) :
    isDigitChar (digitChar d) = true ∧ (digitChar d).toNat - 48 = d := by
  interval_cases d <;> decide

theorem parseNatFrom_digits (n : Nat) : ∀ acc rest,
    parseNatFrom acc (natDigits n ++ rest)
      = parseNatFrom (acc * 10 ^ (natDigits n).length + n) rest := by
  induction n using natDigits.induct with
  | case1 n h =>
    intro acc rest
    rw [natDigits, dif_pos h]
    obtain ⟨hd, hv⟩ := digitChar_spec n h
    simp only [List.cons_append, List.nil_append, List.length_cons, List.length_nil]
    rw [parseNatFrom, if_pos hd, hv]
    norm_num
  | case2 n h ih =>
    intro acc rest
    rw [natDigits, dif_neg h]
    have hm : n % 10 < 10 := Nat.mod_lt _ (by omega)
    obtain ⟨hd, hv⟩ := digitChar_spec (n % 10) hm
    rw [List.append_assoc, ih, List.cons_append, List.nil_append,
      parseNatFrom, if_pos hd, hv]
    congr 1
    simp only [List.length_append, List.length_cons, List.length_nil, pow_succ]
    have he : (acc * 10 ^ (natDigits (n / 10)).length + n / 10) * 10 + n % 10
        = acc * (10 ^ (natDigits (n / 10)).length * 10) + (10 * (n / 10) + n % 10) := by ring
    rw [he, Nat.div_add_mod]

theorem hexVal_hexDigitChar (m : Nat) (h : m < 16) : hexVal (hexDigitChar m) = some m := by
  interval_cases m <;> decide

theorem parseStrBody_raw (c : Char) (u : List Char) (h1 : c ≠ '"') (h2 : c ≠ '\\')
    (h3 : 32 ≤ c.toNat) :
    parseStrBody (c :: u) = (parseStrBody u).map fun p => (c :: p.1, p.2) := by
  rw [parseStrBody]
  · rw [if_neg (by omega)]
  case x_1 => exact h1
  case x_2 =>
    intro _ _ _ _ _ hc _
    exact h2 hc
  case x_3 =>
    intro _ _ hc _
    exact h2 hc

theorem parseStrBody_escChar (c : Char) (u : List Char) :
    parseStrBody (escChar c ++ u) = (parseStrBody u).map fun p => (c :: p.1, p.2) := by
  by_cases h1 : c = '"'
  · have he : escChar c = ['\\', '"'] := by simp [escChar, h1]
    rw [he, h1]
    rfl
  by_cases h2 : c = '\\'
  · have he : escChar c = ['\\', '\\'] := by simp [escChar, h1, h2]
    rw [he, h2]
    rfl
  by_cases h3 : c = '\n'
  · have he : escChar c = ['\\', 'n'] := by simp [escChar, h1, h2, h3]
    rw [he, h3]
    rfl
  by_cases h4 : c = '\t'
  · have he : escChar c = ['\\', 't'] := by simp [escChar, h1, h2, h3, h4]
    rw [he, h4]
    rfl
  by_cases h5 : c = '\r'
  · have he : escChar c = ['\\', 'r'] := by simp [escChar, h1, h2, h3, h4, h5]
    rw [he, h5]
    rfl
  by_cases h6 : c = Char.ofNat 8
  · have he : escChar c = ['\\', 'b'] := by simp [escChar, h1, h2, h3, h4, h5, h6]
    rw [he, h6]
    rfl
  by_cases h7 : c = Char.ofNat 12
  · have he : escChar c = ['\\', 'f'] := by simp [escChar, h1, h2, h3, h4, h5, h6, h7]
    rw [he, h7]
    rfl
  by_cases h8 : c.toNat < 32
  · have he : escChar c
        = ['\\', 'u', '0', '0', hexDigitChar (c.toNat / 16), hexDigitChar (c.toNat % 16)] := by
      simp [escChar, h1, h2, h3, h4, h5, h6, h7, h8]
    rw [he]
    show parseStrBody ('\\' :: 'u' :: '0' :: '0' :: hexDigitChar (c.toNat / 16)
        :: hexDigitChar (c.toNat % 16) :: u) = _
    rw [parseStrBody, hexVal_hexDigitChar _ (by omega), hexVal_hexDigitChar _ (by omega)]
    have hval : c.toNat / 16 * 16 + c.toNat % 16 = c.toNat := by omega
    show Option.map _ (parseStrBody u) = _
    cases parseStrBody u <;> simp [hval, Char.ofNat_toNat]
  · have he : escChar c = [c] := by simp [escChar, h1, h2, h3, h4, h5, h6, h7, h8]
    rw [he]
    show parseStrBody (c :: u) = _
    rw [parseStrBody_raw c u h1 h2 (by omega)]

theorem parseStrBody_escBody_aux (t : List Char) :
    ∀ l : List Char,
      parseStrBody (l.foldr (fun c acc => escChar c ++ acc) [] ++ '"' :: t)
        = some (l, t) := by
  intro l
  induction l with
  | nil => rfl
  | cons c cs ih =>
    simp only [List.foldr_cons, List.append_assoc]
    rw [parseStrBody_escChar, ih]
    rfl

theorem parseStrBody_escBody (s : String) (t : List Char) :
    parseStrBody (escBody s ++ '"' :: t) = some (s.data, t) :=
  parseStrBody_escBody_aux t s.data

/-- Boolean no-duplicate check on key lists. -/
def keysNodup : List String → Bool
  | [] => true
  | x :: rest => !rest.contains x && keysNodup rest

theorem keysNodup_iff (l : List String) : keysNodup l = true ↔ l.Nodup := by
  induction l with
  | nil => simp [keysNodup]
  | cons x rest ih =>
    simp [keysNodup, ih, List.contains_eq_any_beq, List.any_beq]

mutual
/-- Recursively duplicate-free object keys: the precondition under which
a document survives the `json.loads` dict-building unchanged (a Python
`dict` can never hold duplicate keys, so every document the writer is
given satisfies it). -/
def jnodupB : JValue → Bool
  | .obj kvs => keysNodup (kvs.map Prod.fst) && jnodupL kvs
  | .arr vs => jnodupA vs
  | _ => true
termination_by v => sizeOf v
decreasing_by all_goals (simp; try omega)

/-- `jnodupB` over an object's members. -/
def jnodupL : List (String × JValue) → Bool
  | [] => true
  | (_, v) :: rest => jnodupB v && jnodupL rest
termination_by l => sizeOf l
decreasing_by all_goals (simp; try omega)

/-- `jnodupB` over an array's elements. -/
def jnodupA : List JValue → Bool
  | [] => true
  | v :: rest => jnodupB v && jnodupA rest
termination_by l => sizeOf l
decreasing_by all_goals (simp; try omega)
end

/-- Guard for number literals: the text after a printed value must not
extend the literal (always true at the separators the printer emits). -/
def intSafe : List Char → Prop
  | [] => True
  | c :: _ => isDigitChar c = false ∧ c ≠ '.' ∧ c ≠ 'e' ∧ c ≠ 'E'

theorem parseNatFrom_stop (acc : Nat) (rest : List Char) (h : intSafe rest) :
    parseNatFrom acc rest = (acc, rest) := by
  cases rest with
  | nil => rfl
  | cons c t =>
    rw [parseNatFrom, if_neg]
    simp [intSafe] at h
    simp [h.1]

theorem numberContinues_false (rest : List Char) (h : intSafe rest) :
    numberContinues rest = false := by
  cases rest with
  | nil => rfl
  | cons c t =>
    simp [intSafe] at h
    simp [numberContinues, h.2.1, h.2.2.1, h.2.2.2]

theorem natDigits_cons (n : Nat) :
    ∃ c t, natDigits n = c :: t ∧ isDigitChar c = true := by
  induction n using natDigits.induct with
  | case1 n h =>
    exact ⟨digitChar n, [], by rw [natDigits, dif_pos h], (digitChar_spec n h).1⟩
  | case2 n h ih =>
    obtain ⟨c, t, hct, hc⟩ := ih
    exact ⟨c, t ++ [digitChar (n % 10)], by rw [natDigits, dif_neg h, hct]; rfl, hc⟩

theorem digit_not_ws {c : Char} (hc : isDigitChar c = true) : isWsChar c = false := by
  by_contra h
  simp only [Bool.not_eq_false] at h
  simp only [isWsChar, Bool.or_eq_true, decide_eq_true_eq] at h
  rcases h with ((h | h) | h) | h <;> subst h <;> simp [isDigitChar] at hc

theorem digit_cases {c : Char} (hc : isDigitChar c = true) :
    c = '0' ∨ c = '1' ∨ c = '2' ∨ c = '3' ∨ c = '4' ∨ c = '5' ∨ c = '6' ∨ c = '7'
      ∨ c = '8' ∨ c = '9' := by
  simp only [isDigitChar, Bool.and_eq_true, decide_eq_true_eq] at hc
  obtain ⟨h1, h2⟩ := hc
  have hv1 : 48 ≤ c.toNat := h1
  have hv2 : c.toNat ≤ 57 := h2
  have hofn : Char.ofNat c.toNat = c := Char.ofNat_toNat c
  interval_cases hv : c.toNat <;> rw [← hofn] <;> decide

theorem skipWs_ws_append (W : List Char) (hW : ∀ c ∈ W, isWsChar c = true) (t : List Char) :
    skipWs (W ++ t) = skipWs t := by
  induction W with
  | nil => simp
  | cons c cs ih =>
    rw [List.cons_append, skipWs_cons_ws (hW c (by simp)), ih (fun x hx => hW x (by simp [hx]))]

theorem skipWs_idem (cs : List Char) : skipWs (skipWs cs) = skipWs cs := by
  induction cs with
  | nil => rfl
  | cons c t ih =>
    cases hc : isWsChar c with
    | true => rw [skipWs_cons_ws hc, ih]
    | false => rw [skipWs_cons_not hc, skipWs_cons_not hc]

theorem parseValue_skipWs_eq (f : Nat) (cs : List Char) :
    parseValue (Nat.succ f) cs = parseValue (Nat.succ f) (skipWs cs) := by
  conv_lhs => rw [parseValue]
  conv_rhs => rw [parseValue]
  rw [skipWs_idem]

theorem parseValue_openBrace (f : Nat) (tail : List Char) :
    parseValue (Nat.succ f) ('\x7b' :: tail)
      = (match skipWs tail with
         | '\x7d' :: r2 => some (.obj [], r2)
         | _ => parseMembers f [] tail) := rfl

theorem parseValue_openBracket (f : Nat) (tail : List Char) :
    parseValue (Nat.succ f) ('[' :: tail)
      = (match skipWs tail with
         | ']' :: r2 => some (.arr [], r2)
         | _ => parseElems f [] tail) := rfl

theorem parseValue_quote (f : Nat) (tail : List Char) :
    parseValue (Nat.succ f) ('"' :: tail)
      = (parseStrBody tail).map fun p => (.str (String.mk p.1), p.2) := rfl

theorem parseValue_true (f : Nat) (tail : List Char) :
    parseValue (Nat.succ f) ('t' :: 'r' :: 'u' :: 'e' :: tail) = some (.bool true, tail) := rfl

theorem parseValue_false (f : Nat) (tail : List Char) :
    parseValue (Nat.succ f) ('f' :: 'a' :: 'l' :: 's' :: 'e' :: tail)
      = some (.bool false, tail) := rfl

theorem parseValue_null (f : Nat) (tail : List Char) :
    parseValue (Nat.succ f) ('n' :: 'u' :: 'l' :: 'l' :: tail) = some (.null, tail) := rfl

theorem parseValue_digit (f : Nat) (c : Char) (tail : List Char) (hc : isDigitChar c = true) :
    parseValue (Nat.succ f) (c :: tail)
      = (if numberContinues (parseNatFrom (c.toNat - 48) tail).2 then none
         else some (.int ((parseNatFrom (c.toNat - 48) tail).1 : Int),
                    (parseNatFrom (c.toNat - 48) tail).2)) := by
  rcases digit_cases hc with rfl | rfl | rfl | rfl | rfl | rfl | rfl | rfl | rfl | rfl <;> rfl

theorem parseValue_neg (f : Nat) (c : Char) (tail : List Char) (hc : isDigitChar c = true) :
    parseValue (Nat.succ f) ('-' :: c :: tail)
      = (if numberContinues (parseNatFrom (c.toNat - 48) tail).2 then none
         else some (.int (-((parseNatFrom (c.toNat - 48) tail).1 : Int)),
                    (parseNatFrom (c.toNat - 48) tail).2)) := by
  rcases digit_cases hc with rfl | rfl | rfl | rfl | rfl | rfl | rfl | rfl | rfl | rfl <;> rfl

theorem parseNat_natDigits (n : Nat) (rest : List Char) (hrest : intSafe rest)
    (c : Char) (t : List Char) (hct : natDigits n = c :: t) (hc : isDigitChar c = true) :
    parseNatFrom (c.toNat - 48) (t ++ rest) = (n, rest) := by
  have h0 : parseNatFrom 0 (natDigits n ++ rest) = (n, rest) := by
    rw [parseNatFrom_digits]
    simpa using parseNatFrom_stop n rest hrest
  rw [hct, List.cons_append, parseNatFrom, if_pos hc] at h0
  simpa using h0

theorem printMembers_shape (ind : Nat) (kv : String × JValue) (kvs : List (String × JValue)) :
    ∃ Z, printMembers ind kv kvs = spaces ind ++ '"' :: Z := by
  obtain ⟨k, v⟩ := kv
  cases kvs with
  | nil =>
    rw [printMembers]
    exact ⟨escBody k ++ '"' :: ':' :: ' ' :: printJ ind v,
      by simp [escString, List.append_assoc]⟩
  | cons kv2 rest =>
    rw [printMembers]
    exact ⟨escBody k ++ '"' :: ':' :: ' '
        :: (printJ ind v ++ ',' :: '\n' :: printMembers ind kv2 rest),
      by simp [escString, List.append_assoc]⟩

theorem parseMembers_skipWs_eq (f : Nat) (acc : Doc) (cs : List Char) :
    parseMembers (Nat.succ f) acc cs = parseMembers (Nat.succ f) acc (skipWs cs) := by
  conv_lhs => rw [parseMembers]
  conv_rhs => rw [parseMembers]
  rw [skipWs_idem]

theorem parseMembers_quote (f : Nat) (acc : Doc) (tail : List Char) :
    parseMembers (Nat.succ f) acc ('"' :: tail)
      = (match parseStrBody tail with
         | none => none
         | some (kb, r1) =>
            match skipWs r1 with
            | ':' :: r2 =>
                match parseValue f r2 with
                | none => none
                | some (v, r3) =>
                    match skipWs r3 with
                    | ',' :: r4 => parseMembers f (setKey acc (String.mk kb) v) r4
                    | '\x7d' :: r4 => some (.obj (setKey acc (String.mk kb) v), r4)
                    | _ => none
            | _ => none) := rfl

theorem setKey_fresh_append (d : Doc) (k : String) (v : JValue) (h : ∀ p ∈ d, p.1 ≠ k) :
    setKey d k v = d ++ [(k, v)] := by
  induction d with
  | nil => rfl
  | cons p rest ih =>
    obtain ⟨k', v'⟩ := p
    rw [setKey, if_neg (h (k', v') (by simp)), ih (fun q hq => h q (by simp [hq]))]
    rfl

theorem digit_ne_closers {c : Char} (hc : isDigitChar c = true) : c ≠ ']' ∧ c ≠ '\x7d' := by
  rcases digit_cases hc with rfl | rfl | rfl | rfl | rfl | rfl | rfl | rfl | rfl | rfl <;>
    exact ⟨by decide, by decide⟩

theorem printJ_firstNonWs (ind : Nat) (v : JValue) :
    ∃ c t, printJ ind v = c :: t ∧ isWsChar c = false ∧ c ≠ ']' ∧ c ≠ '\x7d' := by
  cases v with
  | obj kvs =>
    cases kvs with
    | nil => exact ⟨_, _, by rw [printJ], by decide, by decide, by decide⟩
    | cons kv rest => exact ⟨_, _, by rw [printJ], by decide, by decide, by decide⟩
  | arr vs =>
    cases vs with
    | nil => exact ⟨_, _, by rw [printJ], by decide, by decide, by decide⟩
    | cons v0 rest => exact ⟨_, _, by rw [printJ], by decide, by decide, by decide⟩
  | str s =>
    exact ⟨'"', escBody s ++ ['"'], by rw [printJ, escString]; rfl, by decide, by decide,
      by decide⟩
  | int i =>
    by_cases hi : i < 0
    · exact ⟨'-', _, by rw [printJ, intDigits, if_pos hi], by decide, by decide, by decide⟩
    · obtain ⟨c, t, hct, hc⟩ := natDigits_cons i.natAbs
      exact ⟨c, t, by rw [printJ, intDigits, if_neg hi, hct], digit_not_ws hc,
        (digit_ne_closers hc).1, (digit_ne_closers hc).2⟩
  | bool b =>
    cases b with
    | true => exact ⟨_, _, by rw [printJ], by decide, by decide, by decide⟩
    | false => exact ⟨_, _, by rw [printJ], by decide, by decide, by decide⟩
  | null => exact ⟨_, _, by rw [printJ], by decide, by decide, by decide⟩

theorem ws_nl_spaces (n : Nat) : ∀ c ∈ '\n' :: spaces n, isWsChar c = true := by
  intro c hc
  rcases List.mem_cons.mp hc with h | h
  · subst h; decide
  · rw [spaces] at h
    rw [List.eq_of_mem_replicate h]
    decide

theorem parseValue_openBrace_cont (f : Nat) (tail : List Char) (c : Char) (t : List Char)
    (hsw : skipWs tail = c :: t) (hc : c ≠ '\x7d') :
    parseValue (Nat.succ f) ('\x7b' :: tail) = parseMembers f [] tail := by
  rw [parseValue_openBrace, hsw]
  split
  · next heq => rw [List.cons.injEq] at heq; exact absurd heq.1 hc
  · rfl

theorem parseValue_openBracket_cont (f : Nat) (tail : List Char) (c : Char) (t : List Char)
    (hsw : skipWs tail = c :: t) (hc : c ≠ ']') :
    parseValue (Nat.succ f) ('[' :: tail) = parseElems f [] tail := by
  rw [parseValue_openBracket, hsw]
  split
  · next heq => rw [List.cons.injEq] at heq; exact absurd heq.1 hc
  · rfl

theorem printItems_shape (ind : Nat) (v : JValue) (vs : List JValue) :
    ∃ Z, printItems ind v vs = spaces ind ++ (printJ ind v ++ Z) := by
  cases vs with
  | nil => exact ⟨[], by rw [printItems]; simp⟩
  | cons v2 rest => exact ⟨',' :: '\n' :: printItems ind v2 rest, by rw [printItems]⟩

theorem intSafe_comma (t : List Char) : intSafe (',' :: t) :=
  ⟨by decide, by decide, by decide, by decide⟩

theorem intSafe_nl (t : List Char) : intSafe ('\n' :: t) :=
  ⟨by decide, by decide, by decide, by decide⟩

mutual
/-- The scanner reads back exactly the text the printer emitted for a
value (with any leading whitespace `W`), leaving `rest` untouched. -/
theorem parse_printJ (v : JValue) : ∀ (W : List Char) (ind : Nat) (rest : List Char)
    (f : Nat) (cs : List Char),
    cs = W ++ printJ ind v ++ rest →
    (∀ c ∈ W, isWsChar c = true) →
    (printJ ind v ++ rest).length < f →
    intSafe rest →
    jnodupB v = true →
    parseValue f cs = some (v, rest) := by
  intro W ind rest f cs hcs hW hpr hsafe hnd
  subst hcs
  cases f with
  | zero => exact absurd hpr (Nat.not_lt_zero _)
  | succ f' =>
  have hskip : skipWs (W ++ printJ ind v ++ rest) = printJ ind v ++ rest := by
    obtain ⟨c, t, hct, hcw, -, -⟩ := printJ_firstNonWs ind v
    rw [List.append_assoc, skipWs_ws_append W hW, hct, List.cons_append,
      skipWs_cons_not hcw, ← List.cons_append, ← hct]
  rw [parseValue_skipWs_eq, hskip]
  clear hW hskip
  cases v with
  | obj kvs =>
    rw [jnodupB, Bool.and_eq_true] at hnd
    obtain ⟨hkeys, hmem⟩ := hnd
    cases kvs with
    | nil => rw [printJ]; rfl
    | cons kv kvs' =>
      rw [printJ]
      have hsh : ('\x7b' :: '\n' ::
            (printMembers (ind + 2) kv kvs' ++ '\n' :: spaces ind ++ ['\x7d'])) ++ rest
          = '\x7b' :: ('\n' ::
            (printMembers (ind + 2) kv kvs' ++ '\n' :: spaces ind ++ '\x7d' :: rest)) := by
        simp
      rw [hsh]
      obtain ⟨Z, hZ⟩ := printMembers_shape (ind + 2) kv kvs'
      have hsw : ∃ u, skipWs ('\n' ::
            (printMembers (ind + 2) kv kvs' ++ '\n' :: spaces ind ++ '\x7d' :: rest))
          = '"' :: u := by
        rw [skipWs_cons_ws (by decide), hZ]
        simp only [List.append_assoc, List.cons_append, List.nil_append]
        rw [skipWs_spaces, skipWs_cons_not (by decide)]
        exact ⟨_, rfl⟩
      obtain ⟨u, hsw⟩ := hsw
      rw [parseValue_openBrace_cont f' _ '"' u hsw (by decide)]
      have hlen : ('\n' ::
            (printMembers (ind + 2) kv kvs' ++ '\n' :: spaces ind ++ '\x7d' :: rest)).length
          < f' := by
        rw [printJ] at hpr
        simp only [List.length_cons, List.length_append, List.length_singleton] at hpr ⊢
        omega
      have hnd1 : (List.map Prod.fst ([] : Doc)
          ++ List.map Prod.fst (kv :: kvs')).Nodup := by
        simpa using (keysNodup_iff _).mp hkeys
      have hm := parse_printMembers kv kvs' (ind + 2) ind [] rest f' _ rfl hlen hnd1 hmem
      simpa using hm
  | arr vs =>
    rw [jnodupB] at hnd
    cases vs with
    | nil => rw [printJ]; rfl
    | cons v0 vs' =>
      rw [printJ]
      have hsh : ('[' :: '\n' ::
            (printItems (ind + 2) v0 vs' ++ '\n' :: spaces ind ++ [']'])) ++ rest
          = '[' :: ('\n' ::
            (printItems (ind + 2) v0 vs' ++ '\n' :: spaces ind ++ ']' :: rest)) := by
        simp
      rw [hsh]
      obtain ⟨Z, hZ⟩ := printItems_shape (ind + 2) v0 vs'
      obtain ⟨c, t, hct, hcw, hc1, -⟩ := printJ_firstNonWs (ind + 2) v0
      have hsw : ∃ u, skipWs ('\n' ::
            (printItems (ind + 2) v0 vs' ++ '\n' :: spaces ind ++ ']' :: rest))
          = c :: u := by
        rw [skipWs_cons_ws (by decide), hZ, hct]
        simp only [List.append_assoc, List.cons_append, List.nil_append]
        rw [skipWs_spaces, skipWs_cons_not hcw]
        exact ⟨_, rfl⟩
      obtain ⟨u, hsw⟩ := hsw
      rw [parseValue_openBracket_cont f' _ c u hsw hc1]
      have hlen : ('\n' ::
            (printItems (ind + 2) v0 vs' ++ '\n' :: spaces ind ++ ']' :: rest)).length
          < f' := by
        rw [printJ] at hpr
        simp only [List.length_cons, List.length_append, List.length_singleton] at hpr ⊢
        omega
      exact parse_printItems v0 vs' (ind + 2) ind [] rest f' _ rfl hlen hnd
  | str s =>
    rw [printJ]
    have hsh : escString s ++ rest = '"' :: (escBody s ++ '"' :: rest) := by
      simp [escString]
    rw [hsh, parseValue_quote, parseStrBody_escBody]
    rfl
  | int i =>
    rw [printJ, intDigits]
    by_cases hi : i < 0
    · rw [if_pos hi]
      obtain ⟨c, t, hct, hc⟩ := natDigits_cons i.natAbs
      rw [hct]
      have hsh : ('-' :: c :: t) ++ rest = '-' :: c :: (t ++ rest) := by simp
      rw [hsh, parseValue_neg f' c (t ++ rest) hc,
        parseNat_natDigits i.natAbs rest hsafe c t hct hc]
      have hval : (-(i.natAbs : Int)) = i := by omega
      simp only [numberContinues_false rest hsafe, Bool.false_eq_true, if_false]
      rw [hval]
    · rw [if_neg hi]
      obtain ⟨c, t, hct, hc⟩ := natDigits_cons i.natAbs
      rw [hct]
      have hsh : (c :: t) ++ rest = c :: (t ++ rest) := by simp
      rw [hsh, parseValue_digit f' c (t ++ rest) hc,
        parseNat_natDigits i.natAbs rest hsafe c t hct hc]
      have hval : ((i.natAbs : Nat) : Int) = i := by omega
      simp only [numberContinues_false rest hsafe, Bool.false_eq_true, if_false]
      rw [hval]
  | bool b =>
    cases b with
    | true => rw [printJ]; rfl
    | false => rw [printJ]; rfl
  | null => rw [printJ]; rfl
termination_by sizeOf v
decreasing_by all_goals (subst_vars; simp; try omega)

/-- The member loop reads back a printed member list: each printed
member is consumed in turn and appended (fresh, by the no-duplicate
hypothesis) to the accumulator. -/
theorem parse_printMembers (kv : String × JValue) (kvs : List (String × JValue)) :
    ∀ (ind ind0 : Nat) (acc : Doc) (rest : List Char) (f : Nat) (cs : List Char),
    cs = '\n' :: (printMembers ind kv kvs ++ '\n' :: spaces ind0 ++ '\x7d' :: rest) →
    cs.length < f →
    (acc.map Prod.fst ++ (kv :: kvs).map Prod.fst).Nodup →
    jnodupL (kv :: kvs) = true →
    parseMembers f acc cs = some (.obj (acc ++ kv :: kvs), rest) := by
  obtain ⟨k, v⟩ := kv
  intro ind ind0 acc rest f cs hcs hf hnd hwf
  subst hcs
  cases f with
  | zero => exact absurd hf (Nat.not_lt_zero _)
  | succ f' =>
  rw [jnodupL, Bool.and_eq_true] at hwf
  obtain ⟨hv, hrest⟩ := hwf
  have hfresh : ∀ p ∈ acc, p.1 ≠ k := by
    intro p hp hpk
    rw [List.nodup_append] at hnd
    exact hnd.2.2 (List.mem_map_of_mem Prod.fst hp) (by simp [hpk])
  have hks : String.mk k.data = k := rfl
  cases kvs with
  | nil =>
    have hsw : skipWs ('\n' ::
          (printMembers ind (k, v) [] ++ '\n' :: spaces ind0 ++ '\x7d' :: rest))
        = '"' :: (escBody k ++ '"' :: ':' :: ' ' ::
            (printJ ind v ++ '\n' :: (spaces ind0 ++ '\x7d' :: rest))) := by
      rw [skipWs_cons_ws (by decide), printMembers, escString]
      simp only [List.append_assoc, List.cons_append, List.nil_append]
      rw [skipWs_spaces, skipWs_cons_not (by decide)]
    rw [parseMembers_skipWs_eq, hsw, parseMembers_quote, parseStrBody_escBody]
    try simp only []
    rw [skipWs_cons_not (by decide)]
    try simp only []
    have hlen : (printJ ind v ++ '\n' :: (spaces ind0 ++ '\x7d' :: rest)).length < f' := by
      rw [printMembers, escString] at hf
      simp only [List.length_cons, List.length_append, List.length_singleton] at hf ⊢
      omega
    have hval := parse_printJ v [' '] ind ('\n' :: (spaces ind0 ++ '\x7d' :: rest)) f'
      (' ' :: (printJ ind v ++ '\n' :: (spaces ind0 ++ '\x7d' :: rest)))
      (by simp)
      (by intro c hc; simp only [List.mem_singleton] at hc; subst hc; decide)
      hlen (intSafe_nl _) hv
    rw [hval]
    try simp only []
    rw [skipWs_cons_ws (by decide), skipWs_spaces, skipWs_cons_not (by decide)]
    try simp only []
    rw [hks, setKey_fresh_append acc k v hfresh]
  | cons kv2 kvs' =>
    have hsw : skipWs ('\n' ::
          (printMembers ind (k, v) (kv2 :: kvs') ++ '\n' :: spaces ind0 ++ '\x7d' :: rest))
        = '"' :: (escBody k ++ '"' :: ':' :: ' ' ::
            (printJ ind v ++ ',' :: '\n' ::
              (printMembers ind kv2 kvs' ++ '\n' :: (spaces ind0 ++ '\x7d' :: rest)))) := by
      rw [skipWs_cons_ws (by decide), printMembers, escString]
      simp only [List.append_assoc, List.cons_append, List.nil_append]
      rw [skipWs_spaces, skipWs_cons_not (by decide)]
    rw [parseMembers_skipWs_eq, hsw, parseMembers_quote, parseStrBody_escBody]
    try simp only []
    rw [skipWs_cons_not (by decide)]
    try simp only []
    have hlen : (printJ ind v ++ ',' :: '\n' ::
        (printMembers ind kv2 kvs' ++ '\n' :: (spaces ind0 ++ '\x7d' :: rest))).length
        < f' := by
      rw [printMembers, escString] at hf
      simp only [List.length_cons, List.length_append, List.length_singleton] at hf ⊢
      omega
    have hval := parse_printJ v [' '] ind
      (',' :: '\n' :: (printMembers ind kv2 kvs' ++ '\n' :: (spaces ind0 ++ '\x7d' :: rest)))
      f'
      (' ' :: (printJ ind v ++ ',' :: '\n' ::
        (printMembers ind kv2 kvs' ++ '\n' :: (spaces ind0 ++ '\x7d' :: rest))))
      (by simp)
      (by intro c hc; simp only [List.mem_singleton] at hc; subst hc; decide)
      hlen (intSafe_comma _) hv
    rw [hval]
    try simp only []
    rw [skipWs_cons_not (by decide)]
    try simp only []
    rw [hks, setKey_fresh_append acc k v hfresh]
    have hlen2 : ('\n' ::
        (printMembers ind kv2 kvs' ++ '\n' :: (spaces ind0 ++ '\x7d' :: rest))).length
        < f' := by
      rw [printMembers, escString] at hf
      simp only [List.length_cons, List.length_append, List.length_singleton] at hf ⊢
      omega
    have hnd2 : ((acc ++ [(k, v)]).map Prod.fst ++ (kv2 :: kvs').map Prod.fst).Nodup := by
      simpa [List.append_assoc] using hnd
    have hrec := parse_printMembers kv2 kvs' ind ind0 (acc ++ [(k, v)]) rest f' _
      (by simp) hlen2 hnd2 hrest
    simpa [List.append_assoc] using hrec
termination_by 1 + sizeOf kv + sizeOf kvs
decreasing_by all_goals (subst_vars; simp; try omega)

/-- The element loop reads back a printed item list, appending each
item to the accumulator in order. -/
theorem parse_printItems (v : JValue) (vs : List JValue) :
    ∀ (ind ind0 : Nat) (acc : List JValue) (rest : List Char) (f : Nat) (cs : List Char),
    cs = '\n' :: (printItems ind v vs ++ '\n' :: spaces ind0 ++ ']' :: rest) →
    cs.length < f →
    jnodupA (v :: vs) = true →
    parseElems f acc cs = some (.arr (acc ++ v :: vs), rest) := by
  intro ind ind0 acc rest f cs hcs hf hwf
  subst hcs
  cases f with
  | zero => exact absurd hf (Nat.not_lt_zero _)
  | succ f' =>
  rw [jnodupA, Bool.and_eq_true] at hwf
  obtain ⟨hv, hrest⟩ := hwf
  rw [parseElems]
  cases vs with
  | nil =>
    have hlen : (printJ ind v ++ '\n' :: (spaces ind0 ++ ']' :: rest)).length < f' := by
      rw [printItems] at hf
      simp only [List.length_cons, List.length_append, List.length_singleton] at hf ⊢
      omega
    have hval := parse_printJ v ('\n' :: spaces ind) ind
      ('\n' :: (spaces ind0 ++ ']' :: rest)) f'
      ('\n' :: (printItems ind v [] ++ '\n' :: spaces ind0 ++ ']' :: rest))
      (by rw [printItems]; simp)
      (ws_nl_spaces ind) hlen (intSafe_nl _) hv
    rw [hval]
    try simp only []
    rw [skipWs_cons_ws (by decide), skipWs_spaces, skipWs_cons_not (by decide)]
    try simp only []
  | cons v2 vs' =>
    have hlen : (printJ ind v ++ ',' :: '\n' ::
        (printItems ind v2 vs' ++ '\n' :: (spaces ind0 ++ ']' :: rest))).length < f' := by
      rw [printItems] at hf
      simp only [List.length_cons, List.length_append, List.length_singleton] at hf ⊢
      omega
    have hval := parse_printJ v ('\n' :: spaces ind) ind
      (',' :: '\n' :: (printItems ind v2 vs' ++ '\n' :: (spaces ind0 ++ ']' :: rest))) f'
      ('\n' :: (printItems ind v (v2 :: vs') ++ '\n' :: spaces ind0 ++ ']' :: rest))
      (by rw [printItems]; simp)
      (ws_nl_spaces ind) hlen (intSafe_comma _) hv
    rw [hval]
    try simp only []
    rw [skipWs_cons_not (by decide)]
    try simp only []
    have hlen2 : ('\n' ::
        (printItems ind v2 vs' ++ '\n' :: (spaces ind0 ++ ']' :: rest))).length < f' := by
      rw [printItems] at hf
      simp only [List.length_cons, List.length_append, List.length_singleton] at hf ⊢
      omega
    have hrec := parse_printItems v2 vs' ind ind0 (acc ++ [v]) rest f' _
      (by simp) hlen2 hrest
    simpa [List.append_assoc] using hrec
termination_by 1 + sizeOf v + sizeOf vs
decreasing_by all_goals (subst_vars; simp; try omega)
end

theorem readJsonText_some (cs : List Char) :
    readJsonText (some cs)
      = (match pyJsonLoads (stripComments cs) with
         | none => Except.error (.invalidJsonError "path" "invalid JSON")
         | some v =>
            match v with
            | .obj _ => Except.ok v
            | _ => Except.error (.invalidSchemaError "path" "Expected a JSON object (dict)")) :=
  rfl

/-- C8: for every JSON object document whose (Python-dict-guaranteed)
keys are recursively duplicate-free — including documents with nested
objects, arrays, unicode strings, and empty structures — writing it
with `atomic_write_json` (which writes
`json.dumps(data, indent=2, ensure_ascii=False) + "\n"`) and reading
the text back through `read_json_object`'s comment-strip + `json.loads`
+ dict-check pipeline returns exactly the original document. -/
theorem atomic_write_read_roundtrip (d : Doc) (hnd : jnodupB (.obj d) = true) :
    readJsonText (some (writeContent d)) = .ok (.obj d) := by
  have hval : parseValue ((writeContent d).length + 1) (writeContent d)
      = some (.obj d, ['\n']) :=
    parse_printJ (.obj d) [] 0 ['\n'] ((writeContent d).length + 1) (writeContent d)
      (by simp [writeContent]) (by simp)
      (by rw [writeContent]; exact Nat.lt_succ_self _)
      (intSafe_nl []) hnd
  rw [readJsonText_some, stripComments_writeContent, pyJsonLoads, hval]
  rfl

/-- A concrete nested document exercising objects, arrays, unicode
strings, negative numbers, booleans, null and empty structures. -/
def roundtripDoc : Doc :=
  [("theme", .str "dark"),
   ("provider", .obj [("azure-cognitive-services",
      .obj [("options", .obj [("baseURL", .str "https://myres.cognitiveservices.azure.com/openai")]),
            ("whitelist", .arr [.str "gpt-4o", .str "café-模型"])])]),
   ("disabled_providers", .arr [.str "azure", .str "openai"]),
   ("empty_obj", .obj []),
   ("empty_arr", .arr []),
   ("n", .int (-42)),
   ("flag", .bool true),
   ("nothing", .null)]

theorem atomic_write_read_roundtrip_witness :
    jnodupB (.obj roundtripDoc) = true
      ∧ readJsonText (some (writeContent roundtripDoc)) = .ok (.obj roundtripDoc) := by
  have hnd : jnodupB (.obj roundtripDoc) = true := by
    rw [roundtripDoc]
    simp [jnodupB, jnodupL, jnodupA, keysNodup]
  exact ⟨hnd, atomic_write_read_roundtrip roundtripDoc hnd⟩

/-! ## C9: the comment stripper on arbitrary JSONC-shaped text -/

/-- The bodies the string alternative `(?:[^"\\]|\\.)*` of the stripper
regex can match: any mix of non-quote non-backslash characters (a raw
newline included, via `[^"\\]`) and backslash-escape pairs whose
escaped character is not a newline (`.` does not match a newline
without `re.DOTALL`). -/
def validBody : List Char → Bool
  | [] => true
  | c :: rest =>
      if c = '\\' then
        match rest with
        | [] => false
        | c2 :: rest2 => c2 != '\n' && validBody rest2
      else c != '"' && validBody rest

theorem strSpan_validBody_aux : ∀ (n : Nat) (b : List Char), b.length ≤ n →
    validBody b = true → ∀ t, strSpan (b ++ '"' :: t) = some (b, t) := by
  intro n
  induction n with
  | zero =>
    intro b hlen hv t
    have hb : b = [] := List.eq_nil_of_length_eq_zero (by omega)
    subst hb
    rw [List.nil_append, strSpan]
  | succ n ih =>
    intro b hlen hv t
    cases b with
    | nil => rw [List.nil_append, strSpan]
    | cons c rest =>
      rw [validBody.eq_def] at hv
      simp only [] at hv
      by_cases hcb : c = '\\'
      · rw [if_pos hcb] at hv
        cases rest with
        | nil => simp at hv
        | cons c2 rest2 =>
          simp only [] at hv
          rw [Bool.and_eq_true, bne_iff_ne] at hv
          obtain ⟨hnl, hv2⟩ := hv
          subst hcb
          rw [List.cons_append, List.cons_append, strSpan_esc2 c2 hnl,
            ih rest2 (by simp at hlen ⊢; omega) hv2 t]
          rfl
      · rw [if_neg hcb] at hv
        rw [Bool.and_eq_true, bne_iff_ne] at hv
        obtain ⟨hq, hrest⟩ := hv
        rw [List.cons_append, strSpan_plainc c hq hcb,
          ih rest (by simp at hlen ⊢; omega) hrest t]
        rfl

theorem strSpan_validBody (b : List Char) (h : validBody b = true) (t : List Char) :
    strSpan (b ++ '"' :: t) = some (b, t) :=
  strSpan_validBody_aux b.length b le_rfl h t

theorem stripComments_strLit (b : List Char) (h : validBody b = true) (t : List Char) :
    stripComments ('"' :: (b ++ '"' :: t)) = '"' :: b ++ '"' :: stripComments t := by
  rw [stripComments, strSpan_validBody b h t]

theorem dropComment_append (cm : List Char) (h : ∀ c ∈ cm, c ≠ '\n') (t : List Char) :
    dropComment (cm ++ '\n' :: t) = '\n' :: t := by
  induction cm with
  | nil => simp [dropComment, List.dropWhile_cons]
  | cons c cs ih =>
    simp only [dropComment, List.cons_append, List.dropWhile_cons, h c (by simp),
      ne_eq, not_false_eq_true, decide_True, if_true]
    exact ih (fun x hx => h x (by simp [hx]))

theorem dropComment_nilled (cm : List Char) (h : ∀ c ∈ cm, c ≠ '\n') :
    dropComment cm = [] := by
  induction cm with
  | nil => rfl
  | cons c cs ih =>
    simp only [dropComment, List.dropWhile_cons, h c (by simp),
      ne_eq, not_false_eq_true, decide_True, if_true]
    exact ih (fun x hx => h x (by simp [hx]))

theorem stripComments_comment (cm : List Char) (h : ∀ c ∈ cm, c ≠ '\n') (t : List Char) :
    stripComments ('/' :: '/' :: (cm ++ '\n' :: t)) = '\n' :: stripComments t := by
  rw [stripComments, dropComment_append cm h t,
    stripComments_pchar '\n' ⟨by decide, by decide⟩ t]

theorem stripComments_commentEnd (cm : List Char) (h : ∀ c ∈ cm, c ≠ '\n') :
    stripComments ('/' :: '/' :: cm) = [] := by
  rw [stripComments, dropComment_nilled cm h, stripComments]

/-- A lexical piece of a JSONC text: an ordinary character (not a quote
and not a slash), a complete string literal, a `//` comment ended by a
newline, or a `//` comment that closes the text. -/
inductive JPiece
  | raw (c : Char)
  | strLit (b : List Char)
  | comment (cm : List Char)
  | commentEnd (cm : List Char)

/-- The text of a piece. -/
def pieceText : JPiece → List Char
  | .raw c => [c]
  | .strLit b => '"' :: b ++ ['"']
  | .comment cm => '/' :: '/' :: cm ++ ['\n']
  | .commentEnd cm => '/' :: '/' :: cm

/-- What the stripper should leave of a piece: comments vanish (the
newline that ended a comment stays), everything else survives
verbatim. -/
def pieceStripped : JPiece → List Char
  | .raw c => [c]
  | .strLit b => '"' :: b ++ ['"']
  | .comment _ => ['\n']
  | .commentEnd _ => []

/-- Concatenated text of a piece list. -/
def renderPieces : List JPiece → List Char
  | [] => []
  | p :: rest => pieceText p ++ renderPieces rest

/-- Concatenated stripped text of a piece list. -/
def strippedPieces : List JPiece → List Char
  | [] => []
  | p :: rest => pieceStripped p ++ strippedPieces rest

/-- Well-formedness of one piece. -/
def pieceWF : JPiece → Bool
  | .raw c => c != '"' && c != '/'
  | .strLit b => validBody b
  | .comment cm => cm.all (fun c => c != '\n')
  | .commentEnd cm => cm.all (fun c => c != '\n')

/-- Whether a piece is a text-closing comment. -/
def isCommentEnd : JPiece → Bool
  | .commentEnd _ => true
  | _ => false

/-- Well-formed piece lists: each piece well formed, and a text-closing
comment only in final position. -/
def piecesWF : List JPiece → Bool
  | [] => true
  | p :: rest => pieceWF p && (!(isCommentEnd p) || rest.isEmpty) && piecesWF rest

theorem all_ne_nl {cm : List Char} (h : cm.all (fun c => c != '\n') = true) :
    ∀ c ∈ cm, c ≠ '\n' := by
  intro c hc
  simpa using List.all_eq_true.mp h c hc

/-- C9: on any text decomposed into ordinary characters, complete
string literals (whose bodies may contain `//` and escaped quotes), and
`//` comments, `_strip_jsonc_comments` removes exactly the comments —
each `//` outside a string literal together with everything up to the
end of its line — and leaves every string literal, including any `//`
inside it, untouched. -/
theorem strip_jsonc_comments_spec (ps : List JPiece) (h : piecesWF ps = true) :
    stripComments (renderPieces ps) = strippedPieces ps := by
  induction ps with
  | nil => rw [renderPieces, strippedPieces, stripComments]
  | cons p rest ih =>
    rw [piecesWF, Bool.and_eq_true, Bool.and_eq_true] at h
    obtain ⟨⟨hp, hce⟩, hrest⟩ := h
    have ihr := ih hrest
    cases p with
    | raw c =>
      rw [pieceWF, Bool.and_eq_true, bne_iff_ne, bne_iff_ne] at hp
      rw [renderPieces, strippedPieces, pieceText, pieceStripped]
      simp only [List.cons_append, List.nil_append]
      rw [stripComments_pchar c ⟨hp.1, hp.2⟩, ihr]
    | strLit b =>
      rw [pieceWF] at hp
      rw [renderPieces, strippedPieces, pieceText, pieceStripped]
      simp only [List.cons_append, List.nil_append, List.append_assoc]
      rw [stripComments_strLit b hp (renderPieces rest), ihr]
      simp
    | comment cm =>
      rw [pieceWF] at hp
      rw [renderPieces, strippedPieces, pieceText, pieceStripped]
      simp only [List.cons_append, List.nil_append, List.append_assoc]
      rw [stripComments_comment cm (all_ne_nl hp) (renderPieces rest), ihr]
    | commentEnd cm =>
      rw [pieceWF] at hp
      have hre : rest = [] := by simpa [isCommentEnd] using hce
      subst hre
      rw [renderPieces, strippedPieces, pieceText, pieceStripped, renderPieces,
        strippedPieces]
      simp only [List.append_nil]
      rw [stripComments_commentEnd cm (all_ne_nl hp)]

/-- A concrete JSONC text: `{"a":"http://ex" // c1` newline `"\"//"}` and
a closing comment — slashes inside both string literals survive, both
comments are removed to their line ends. -/
def jsoncPieces : List JPiece :=
  [.raw '\x7b', .strLit ['a'], .raw ':', .strLit ['h','t','t','p',':','/','/','e','x'],
   .comment [' ','c','1'], .strLit ['\\','"','/','/'], .raw '\x7d',
   .commentEnd [' ','b','y','e']]

theorem strip_jsonc_comments_spec_witness :
    piecesWF jsoncPieces = true
      ∧ stripComments (renderPieces jsoncPieces) = strippedPieces jsoncPieces :=
  ⟨by decide, strip_jsonc_comments_spec jsoncPieces (by decide)⟩

/-! ## C1: the event sequence of `cli._do_merge_and_write` -/

/-- `read_json_object` at the document level: the top-level value is
unwrapped to its member list (a non-object is rejected inside
`readJsonText` already; the catch-all arm is unreachable). -/
def readJsonDoc (t : Option (List Char)) : Except PyErr Doc :=
  match readJsonText t with
  | .error e => .error e
  | .ok (.obj d) => .ok d
  | .ok _ => .error (.invalidSchemaError "path" "Expected a JSON object (dict)")

/-- Observable filesystem events of one setup invocation.  `backup` is
in the vocabulary because `locking.backup_file` exists in the code
base; whether the merge path ever emits it is exactly what is at
stake. -/
inductive Event
  | lock (file : String)
  | readF (file : String)
  | computeConfig
  | computeAuth
  | backup (file : String)
  | writeF (file : String) (content : List Char)
  | unlock (file : String)

/-- `cli._do_merge_and_write` (cli.py:244) with discovery already
resolved: `with file_lock(config_path), file_lock(auth_path):` acquires
both locks, reads both documents through `read_json_object`, runs
`merge_config` then `merge_auth`, writes both results with
`atomic_write_json`, and the `with` block releases the locks in reverse
order.  The body contains no call to `backup_file`.  On any raised
error the result is the error (the locks are still released by the
context manager; error traces are not modelled). -/
def doMergeAndWrite (configText authText : Option (List Char))
    (provider_id resource_name : String) (whitelist disabled_providers : List String)
    (api_key : String) : Except PyErr (Doc × Doc × List Event) :=
  match readJsonDoc configText with
  | .error e => .error e
  | .ok existing_config =>
    match readJsonDoc authText with
    | .error e => .error e
    | .ok existing_auth =>
      match merge_config existing_config provider_id resource_name
          whitelist disabled_providers with
      | .error e => .error e
      | .ok new_config =>
        match merge_auth existing_auth provider_id api_key with
        | .error e => .error e
        | .ok new_auth =>
          .ok (new_config, new_auth,
            [.lock "config", .lock "auth",
             .readF "config", .readF "auth",
             .computeConfig, .computeAuth,
             .writeF "config" (writeContent new_config),
             .writeF "auth" (writeContent new_auth),
             .unlock "auth", .unlock "config"])

/-- C1 counterexample: a setup run that overwrites an existing config
file (the file exists and holds `{}`) completes successfully with a
trace containing no backup event at all — `_do_merge_and_write` never
calls `backup_file`. -/
def noBackupConf : Doc :=
  [("disabled_providers", .arr [.str "azure"]),
   ("provider", .obj [("azure-cognitive-services",
      .obj [("options",
              .obj [("baseURL", .str "https://myres.cognitiveservices.azure.com/openai")]),
            ("whitelist", .arr [.str "gpt-4o"])])])]

def noBackupAuth : Doc :=
  [("azure-cognitive-services", .obj [("type", .str "api"), ("key", .str "sk-1")])]

def noBackupTrace : List Event :=
  [.lock "config", .lock "auth", .readF "config", .readF "auth",
   .computeConfig, .computeAuth,
   .writeF "config" (writeContent noBackupConf),
   .writeF "auth" (writeContent noBackupAuth),
   .unlock "auth", .unlock "config"]

theorem do_merge_and_write_no_backup :
    ∃ c a tr, doMergeAndWrite (some ['\x7b', '\x7d']) none
        "azure-cognitive-services" "myres" ["gpt-4o"] ["azure"] "sk-1"
        = .ok (c, a, tr)
      ∧ ∀ f, Event.backup f ∉ tr := by
  have h0 : stripComments ([] : List Char) = [] := by rw [stripComments]
  have h1 : stripComments ['\x7b', '\x7d'] = ['\x7b', '\x7d'] := by
    simpa [h0] using stripComments_plain ['\x7b', '\x7d'] [] (by decide)
  have hread : readJsonText (some ['\x7b', '\x7d']) = .ok (.obj []) := by
    rw [readJsonText_some, h1]
    rfl
  refine ⟨noBackupConf, noBackupAuth, noBackupTrace, ?_, ?_⟩
  · rw [doMergeAndWrite, readJsonDoc, hread]
    rfl
  · intro f hf
    simp [noBackupTrace] at hf

/-- C1 amended: within one setup invocation, the sequence for a
successful merge is lock config → lock auth → read config → read auth →
compute new config → compute new auth → write config → write auth →
unlock auth → unlock config, with both locks held across the whole
read-merge-write span and no backup of either original file — the
claimed backup step does not exist in the code. -/
theorem do_merge_and_write_sequence
    (configText authText : Option (List Char)) (pid rname : String)
    (wl dps : List String) (key : String) (c a : Doc) (tr : List Event)
    (h : doMergeAndWrite configText authText pid rname wl dps key = .ok (c, a, tr)) :
    tr = [.lock "config", .lock "auth", .readF "config", .readF "auth",
          .computeConfig, .computeAuth,
          .writeF "config" (writeContent c), .writeF "auth" (writeContent a),
          .unlock "auth", .unlock "config"]
      ∧ ∀ f, Event.backup f ∉ tr := by
  rw [doMergeAndWrite] at h
  split at h
  · exact absurd h (by simp)
  · split at h
    · exact absurd h (by simp)
    · split at h
      · exact absurd h (by simp)
      · split at h
        · exact absurd h (by simp)
        · simp only [Except.ok.injEq, Prod.mk.injEq] at h
          obtain ⟨hc, ha, htr⟩ := h
          subst hc
          subst ha
          subst htr
          refine ⟨rfl, ?_⟩
          intro f hf
          simp at hf

def seqConf : Doc :=
  [("disabled_providers", .arr []),
   ("provider", .obj [("p",
      .obj [("options",
              .obj [("baseURL", .str "https://a.cognitiveservices.azure.com/openai")]),
            ("whitelist", .arr [])])])]

def seqAuth : Doc := [("p", .obj [("type", .str "api"), ("key", .str "k")])]

def seqTrace : List Event :=
  [.lock "config", .lock "auth", .readF "config", .readF "auth",
   .computeConfig, .computeAuth,
   .writeF "config" (writeContent seqConf),
   .writeF "auth" (writeContent seqAuth),
   .unlock "auth", .unlock "config"]

theorem do_merge_and_write_sequence_witness :
    doMergeAndWrite none none "p" "a" [] [] "k" = .ok (seqConf, seqAuth, seqTrace)
      ∧ (seqTrace = [.lock "config", .lock "auth", .readF "config", .readF "auth",
            .computeConfig, .computeAuth,
            .writeF "config" (writeContent seqConf),
            .writeF "auth" (writeContent seqAuth),
            .unlock "auth", .unlock "config"]
          ∧ ∀ f, Event.backup f ∉ seqTrace) :=
  ⟨rfl, do_merge_and_write_sequence none none "p" "a" [] [] "k" seqConf seqAuth seqTrace rfl⟩

/-! ## C10: when `read_json_object` returns the empty document -/

theorem parseValue_ws (f : Nat) (cs : List Char) (h : skipWs cs = []) :
    parseValue f cs = none := by
  cases f with
  | zero => rw [parseValue]
  | succ f' => rw [parseValue, h]

/-- C10 counterexample: an existing file whose text is `{}` also makes
`read_json_object` return the empty document, so the empty document is
not returned only for a nonexistent path. -/
theorem read_json_object_empty_from_existing_file :
    readJsonText (some ['\x7b', '\x7d']) = .ok (.obj [])
      ∧ (some ['\x7b', '\x7d'] : Option (List Char)) ≠ none := by
  have h0 : stripComments ([] : List Char) = [] := by rw [stripComments]
  have h1 : stripComments ['\x7b', '\x7d'] = ['\x7b', '\x7d'] := by
    simpa [h0] using stripComments_plain ['\x7b', '\x7d'] [] (by decide)
  constructor
  · rw [readJsonText_some, h1]
    rfl
  · simp

/-- C10 amended: a nonexistent path yields the empty document, and an
existing file that is empty or holds only `//` comments — in general,
anything whose comment-stripped text is whitespace-only — raises
`InvalidJsonError`; but an existing file may also legitimately yield
the empty document (for example one containing `\x7b\x7d`). -/
theorem read_json_object_empty_contract (cs : List Char)
    (h : ∀ c ∈ stripComments cs, isWsChar c = true) :
    readJsonText none = .ok (.obj [])
      ∧ readJsonText (some cs) = .error (.invalidJsonError "path" "invalid JSON") := by
  refine ⟨rfl, ?_⟩
  have hsw : skipWs (stripComments cs) = [] := by
    rw [skipWs]
    exact List.dropWhile_eq_nil_iff.mpr h
  have hpv : parseValue ((stripComments cs).length + 1) (stripComments cs) = none :=
    parseValue_ws _ _ hsw
  rw [readJsonText_some, pyJsonLoads, hpv]

theorem read_json_object_empty_contract_witness :
    readJsonText none = .ok (.obj [])
      ∧ readJsonText (some ['/', '/', ' ', 'x'])
          = .error (.invalidJsonError "path" "invalid JSON") :=
  read_json_object_empty_contract ['/', '/', ' ', 'x'] (by
    intro c hc
    rw [stripComments_commentEnd [' ', 'x'] (by decide)] at hc
    simp at hc)
